/-
  Verification of the Path-ORAM client/server pair (client.py, server.py).

  Shallow embedding notes:
  * Byte strings are `List Nat` (each entry a byte value).  Python `str`
    payloads are modelled by their UTF-8 byte lists; all payloads exercised
    by the program are ASCII, where encode/decode is the identity on bytes.
  * `int.to_bytes(4, 'big')` is modelled by `toBytesBE 4`, which truncates
    modulo 2^32; Python instead raises OverflowError above 2^32.  Every value
    serialized by the program is at most N+1, and the verified statements
    carry the bound N + 1 < 2^32, so the two agree on all reachable inputs.
  * AES-GCM is modelled symbolically: a ciphertext records the key identity
    (one fresh key per bucket index), the nonce, the associated data and the
    plaintext; decryption succeeds exactly when key, nonce and associated
    data match, and the ciphertext length is plaintext length + 16 (tag).
    The associated data "bucket_<i>" is injective in i and is modelled by i.
  * Randomness (`random.randint`, `os.urandom`) is passed in as explicit
    parameters: the freshly sampled leaf, and a level-indexed nonce supply.
  * Python exceptions leave already-performed attribute mutations in place;
    the model therefore returns the partial state together with the error.
-/
import Mathlib

namespace PathORAM

/-! ## Bytes -/

/-- Big-endian byte encoding of `n` on `k` bytes (`int.to_bytes(k, 'big')`),
truncating modulo `2^(8*k)`. -/
def toBytesBE (k n : Nat) : List Nat :=
  (List.range k).map (fun j => n / 256 ^ (k - 1 - j) % 256)

/-- Big-endian byte decoding (`int.from_bytes(_, 'big')`). -/
def fromBytesBE (l : List Nat) : Nat :=
  l.foldl (fun acc b => acc * 256 + b) 0

/-! ## Blocks (server.py, class Block) -/

/-- A Path-ORAM block: logical address `a`, mapped leaf `x`, payload bytes
`data`, and the dummy flag.  Mirrors `Block.__init__` in server.py. -/
structure Blk where
  a : Nat
  x : Nat
  data : List Nat
  dummy_flag : Bool
deriving DecidableEq, Repr

/-- `Block.serialize` (server.py): 4 big-endian bytes of `a`, 4 of `x`,
the payload bytes, and one flag byte (0x31 = '1' if dummy else 0x30 = '0'). -/
def serializeBlk (b : Blk) : List Nat :=
  toBytesBE 4 b.a ++ toBytesBE 4 b.x ++ b.data ++ [if b.dummy_flag then 49 else 48]

/-- `deserialize_block` (client.py): fields are read back by byte position;
Python slicing is lenient, so short inputs yield truncated fields. -/
def deserialize_block (bd : List Nat) : Blk :=
  { a := fromBytesBE (bd.take 4)
  , x := fromBytesBE ((bd.drop 4).take 4)
  , data := (bd.drop 8).take 4
  , dummy_flag := decide ((bd.drop 12).take 1 = [49]) }

/-- The two-byte bucket separator `b"||"` (0x7C 0x7C). -/
def sep : List Nat := [124, 124]

/-- Bucket payload before encryption: the serialized blocks joined by `"||"`
(`b"||".join(...)` in client.py). -/
def encode_bucket (bks : List Blk) : List Nat :=
  List.intercalate sep (bks.map serializeBlk)

/-- Prepend a byte to the first piece of a split result. -/
def consHead (b : Nat) : List (List Nat) → List (List Nat)
  | [] => [[b]]
  | p :: ps => (b :: p) :: ps

/-- Python `bytes.split(b"||")`: leftmost-first, non-overlapping split on the
two-byte separator. -/
def splitOnSep : List Nat → List (List Nat)
  | [] => [[]]
  | b :: rest =>
    if b = 124 then
      match rest with
      | [] => [[b]]
      | c :: rest2 =>
        if c = 124 then [] :: splitOnSep rest2
        else consHead b (splitOnSep (c :: rest2))
    else consHead b (splitOnSep rest)

/-- Decoding a bucket payload exactly as the read phase of `Client.Access`
does: split on `"||"` and deserialize every piece. -/
def decode_bucket (pt : List Nat) : List Blk :=
  (splitOnSep pt).map deserialize_block

/-- A byte list is separator-free when it has no two adjacent 0x7C bytes. -/
def sepFree : List Nat → Bool
  | [] => true
  | _ :: [] => true
  | b :: c :: rest => !(b == 124 && c == 124) && sepFree (c :: rest)

/-! ## Symbolic authenticated encryption (AES-GCM) -/

/-- Symbolic AES-GCM ciphertext: records which bucket key produced it, the
nonce, the associated data (the bucket index standing for `"bucket_<i>"`),
and the plaintext. -/
structure Ct where
  keyId : Nat
  nonce : Nat
  ad : Nat
  pt : List Nat
deriving DecidableEq, Repr

/-- Ciphertext byte length: AES-GCM output is plaintext plus the 16-byte tag. -/
def ctLen (c : Ct) : Nat := c.pt.length + 16

/-- `aesgcm_ciphers[i].encrypt(nonce, pt, b"bucket_<i>")`. -/
def encryptB (i nonce : Nat) (pt : List Nat) : Ct :=
  { keyId := i, nonce := nonce, ad := i, pt := pt }

/-- `aesgcm_ciphers[i].decrypt(nonce, ct, b"bucket_<i>")`: succeeds exactly
when key, nonce and associated data all match. -/
def decryptB (i nonce : Nat) (c : Ct) : Option (List Nat) :=
  if c.keyId = i ∧ c.nonce = nonce ∧ c.ad = i then some c.pt else none

/-! ## Tree geometry (server.py Server.__init__, client.py path walks) -/

/-- Server configuration: `N` outsourced blocks, bucket capacity `Z`. -/
structure Cfg where
  N : Nat
  Z : Nat
deriving DecidableEq, Repr

/-- `num_of_buckets = int(N / Z)`. -/
def nbuckets (c : Cfg) : Nat := c.N / c.Z

/-- `L = math.ceil(math.log(num_of_buckets, 2)) - 1` (exact arithmetic). -/
def clog2F : Nat → Nat → Nat
  | _, 0 => 0
  | _, 1 => 0
  | 0, _ + 2 => 0
  | fuel + 1, n + 2 => clog2F fuel ((n + 3) / 2) + 1

/-- `ceil(log2 n)` (`math.ceil(math.log(n, 2))` on exact values; 0 for
`n ≤ 1`), written with structural fuel so it evaluates by reduction. -/
def clog2 (n : Nat) : Nat := clog2F n n

def heightL (c : Cfg) : Nat := clog2 (nbuckets c) - 1

/-- LSB-first binary digits of `n` (empty for 0). -/
def natBitsF : Nat → Nat → List Bool
  | _, 0 => []
  | 0, _ + 1 => []
  | fuel + 1, n + 1 => (decide ((n + 1) % 2 = 1)) :: natBitsF fuel ((n + 1) / 2)

/-- LSB-first binary digits of `x` (empty for 0), with structural fuel so
that it evaluates by reduction. -/
def natBits (x : Nat) : List Bool := natBitsF x x

/-- MSB-first digits of `x` as printed by Python `bin` (so `[false]` for 0). -/
def binDigits (x : Nat) : List Bool :=
  if x = 0 then [false] else (natBits x).reverse

/-- `str.zfill`: left-pad with `'0'` up to length `L` (never truncates). -/
def zfillBits (L : Nat) (l : List Bool) : List Bool :=
  List.replicate (L - l.length) false ++ l

/-- The bit string driving the read loop: `str(bin(x))[2:].zfill(L)`. -/
def bitsOf (L x : Nat) : List Bool := zfillBits L (binDigits x)

/-- The sequence of tree indices visited by the read loop of `Client.Access`:
the current node for each bit (left child on 0, right child on 1), plus the
final leaf node. -/
def walkIndices (i : Nat) : List Bool → List Nat
  | [] => [i]
  | b :: bs => i :: walkIndices (if b then 2 * i + 2 else 2 * i + 1) bs

/-- The node reached after consuming the whole bit string. -/
def walkEnd (i : Nat) : List Bool → Nat
  | [] => i
  | b :: bs => walkEnd (if b then 2 * i + 2 else 2 * i + 1) bs

/-- Indices from a node up to the root via `i ← (i - 1) / 2`
(the while loop of `Client.get_path_leaf_to_root`). -/
def pathToRootF : Nat → Nat → List Nat
  | _, 0 => [0]
  | 0, _ + 1 => []
  | fuel + 1, i + 1 => (i + 1) :: pathToRootF fuel (i / 2)

/-- Indices from a node up to the root via `i ← (i - 1) / 2`, with
structural fuel so that it evaluates by reduction. -/
def pathToRoot (n : Nat) : List Nat := pathToRootF n n

/-- `Client.get_path_leaf_to_root(leaf_index, L)`: the leaf-to-root path in
array representation, starting at `(2^(L+1) - 1) - 2^L + leaf_index`. -/
def get_path_leaf_to_root (leaf_index L : Nat) : List Nat :=
  pathToRoot (2 ^ (L + 1) - 1 - 2 ^ L + leaf_index)

/-- The list of tree indices read by `Access` when the old leaf is `x`. -/
def readIndices (c : Cfg) (x : Nat) : List Nat :=
  walkIndices 0 (bitsOf (heightL c) x)

/-! ## Client state and the Access operation (client.py) -/

/-- The three operations accepted by `Client.Access`. -/
inductive Op where
  | read
  | write
  | delete
deriving DecidableEq, Repr

/-- The Python exceptions `Access` can raise: `KeyError` (position-map lookup
of an absent address), `IndexError` (tree or nonce list index out of range),
and `InvalidTag` (AES-GCM authentication failure). -/
inductive AErr where
  | keyError
  | indexError
  | integrityError
deriving DecidableEq, Repr

/-- Combined client + server mutable state: the stash, the position map, the
per-bucket nonce store, and the server's ciphertext tree. -/
structure OState where
  stash : List Blk
  pos : Nat → Nat
  nonces : Nat → Nat
  tree : List Ct

/-- Result of one `Access` call.  Python exceptions leave the mutations made
so far in place, so the error case carries the state at the raise point. -/
inductive ARes where
  | ok (old : Option (List Nat)) (st : OState)
  | err (e : AErr) (st : OState)

/-- The dummy block `Block(server.N + 1, 0, "----", True)`. -/
def dummyBlk (c : Cfg) : Blk :=
  { a := c.N + 1, x := 0, data := [45, 45, 45, 45], dummy_flag := true }

/-- State after `Server.__init__` plus `Client.__init__`: empty stash, the
sampled position map, one initial nonce per bucket, and every tree slot
holding the encryption of a bucket of `Z` dummy blocks. -/
def initState (c : Cfg) (pos0 nonce0 : Nat → Nat) : OState :=
  { stash := []
  , pos := pos0
  , nonces := nonce0
  , tree := (List.range (nbuckets c)).map (fun i =>
      encryptB i (nonce0 i) (encode_bucket (List.replicate c.Z (dummyBlk c)))) }

/-- One bucket fetch of the read phase: index the tree (IndexError when out
of range), authenticate-decrypt, split on `"||"` and deserialize. -/
def readBucket (tree : List Ct) (nonces : Nat → Nat) (i : Nat) :
    Except AErr (List Blk) :=
  match tree.get? i with
  | none => .error .indexError
  | some ct =>
    match decryptB i (nonces i) ct with
    | none => .error .integrityError
    | some pt => .ok (decode_bucket pt)

/-- The read loop of `Access` over the visited indices, appending every
decoded block to the stash; on failure, the blocks appended so far remain. -/
def readPhase (tree : List Ct) (nonces : Nat → Nat) :
    List Nat → List Blk → Option AErr × List Blk
  | [], acc => (none, acc)
  | i :: rest, acc =>
    match readBucket tree nonces i with
    | .error e => (some e, acc)
    | .ok bks => readPhase tree nonces rest (acc ++ bks)

/-- One level of the eviction scan (client.py lines 130-144): walk the stash
in order; dummies are skipped; for a real block the position map is consulted
(`KeyError` when the address is outside `[0, N)`), and the block is selected
when its path meets the written node at this level and the bucket still has
room.  Returns (selected blocks, remaining stash). -/
def selStep (c : Cfg) (pos : Nat → Nat) (L target level : Nat) :
    List Blk → Nat → Except AErr (List Blk × List Blk)
  | [], _ => .ok ([], [])
  | b :: rest, k =>
    if b.dummy_flag then
      match selStep c pos L target level rest k with
      | .error e => .error e
      | .ok (s, r) => .ok (s, b :: r)
    else if b.a < c.N then
      if (get_path_leaf_to_root (pos b.a) L).getD level 0 = target ∧ k < c.Z then
        match selStep c pos L target level rest (k + 1) with
        | .error e => .error e
        | .ok (s, r) => .ok (b :: s, r)
      else
        match selStep c pos L target level rest k with
        | .error e => .error e
        | .ok (s, r) => .ok (s, b :: r)
    else .error .keyError

/-- The eviction loop (client.py lines 129-167) over the enumerated
leaf-to-root path: select blocks, pad with dummies, store the fresh nonce,
overwrite the tree slot, and drop the placed blocks from the stash. -/
def evictLevels (c : Cfg) (L : Nat) (freshN : Nat → Nat) :
    List (Nat × Nat) → OState → Except (AErr × OState) OState
  | [], st => .ok st
  | (level, node) :: rest, st =>
    match selStep c st.pos L node level st.stash 0 with
    | .error e => .error (e, st)
    | .ok (selB, remaining) =>
      if node < st.tree.length then
        let padded := selB ++ List.replicate (c.Z - selB.length) (dummyBlk c)
        let nonce := freshN level
        evictLevels c L freshN rest
          { stash := remaining
          , pos := st.pos
          , nonces := fun j => if j = node then nonce else st.nonces j
          , tree := st.tree.set node (encryptB node nonce (encode_bucket padded)) }
      else .error (.indexError, st)

/-- `Client.Access(op, a, data_, server)`, with the sampled new leaf and the
per-level fresh nonces passed in explicitly. -/
def Access (c : Cfg) (op : Op) (a : Nat) (data_ : List Nat) (newx : Nat)
    (freshN : Nat → Nat) (st : OState) : ARes :=
  if a < c.N then
    let x := st.pos a
    let pos1 := fun b => if b = a then newx else st.pos b
    let L := heightL c
    match readPhase st.tree st.nonces (readIndices c x) [] with
    | (some e, acc) => .err e { st with pos := pos1, stash := st.stash ++ acc }
    | (none, acc) =>
      let stash1 := st.stash ++ acc
      let idx? := stash1.findIdx? (fun b => b.a == a)
      let data : Option (List Nat) := (stash1.find? (fun b => b.a == a)).map (·.data)
      let stash2 :=
        match op, idx? with
        | .write, some i => stash1.set i { a := a, x := newx, data := data_, dummy_flag := false }
        | .write, none => stash1 ++ [{ a := a, x := newx, data := data_, dummy_flag := false }]
        | .delete, some i => stash1.eraseIdx i
        | .delete, none => stash1.eraseIdx (stash1.length - 1)
        | .read, _ => stash1
      let pb := get_path_leaf_to_root x L
      match evictLevels c L freshN pb.enum
          { stash := stash2, pos := pos1, nonces := st.nonces, tree := st.tree } with
      | .error (e, st1) => .err e st1
      | .ok st1 => .ok data { st1 with stash := st1.stash.filter (fun b => !b.dummy_flag) }
  else .err .keyError st

/-! ## Derived views of a state -/

/-- The blocks stored (beneath the encryption) at tree slot `i`. -/
def nodeBlocks (st : OState) (i : Nat) : List Blk :=
  decode_bucket ((st.tree.getD i (encryptB 0 0 [])).pt)

/-- Every block in the system: the stash followed by all bucket contents. -/
def allBlocks (st : OState) : List Blk :=
  st.stash ++ (List.range st.tree.length).flatMap (fun i => nodeBlocks st i)

/-- Number of real (non-dummy) blocks with address `a` in a block list. -/
def countA (a : Nat) (l : List Blk) : Nat :=
  (l.filter (fun b => !b.dummy_flag && b.a == a)).length

/-- Number of real blocks with address `a` in the whole system. -/
def countO (st : OState) (a : Nat) : Nat := countA a (allBlocks st)

/-- The payload currently stored for address `a` (data of the first real
block with that address), if any. -/
def lookupO (st : OState) (a : Nat) : Option (List Nat) :=
  ((allBlocks st).find? (fun b => !b.dummy_flag && b.a == a)).map (·.data)

/-! ## Codec lemmas -/

lemma toBytesBE_four (n : Nat) :
    toBytesBE 4 n = [n / 256 ^ 3 % 256, n / 256 ^ 2 % 256, n / 256 ^ 1 % 256, n / 256 ^ 0 % 256] := by
  rfl

lemma toBytesBE_length (k n : Nat) : (toBytesBE k n).length = k := by
  simp [toBytesBE]

lemma fromBytesBE_toBytesBE (n : Nat) (h : n < 2 ^ 32) : fromBytesBE (toBytesBE 4 n) = n := by
  rw [toBytesBE_four]
  have e3 : (256 : Nat) ^ 3 = 16777216 := by norm_num
  have e2 : (256 : Nat) ^ 2 = 65536 := by norm_num
  have e1 : (256 : Nat) ^ 1 = 256 := by norm_num
  have e0 : (256 : Nat) ^ 0 = 1 := by norm_num
  have h32 : (2 : Nat) ^ 32 = 4294967296 := by norm_num
  rw [h32] at h
  simp only [fromBytesBE, List.foldl, e3, e2, e1, e0]
  omega

lemma serializeBlk_length (b : Blk) (hd : b.data.length = 4) :
    (serializeBlk b).length = 13 := by
  simp [serializeBlk, toBytesBE_length, hd]

lemma deserialize_serialize (b : Blk) (hd : b.data.length = 4)
    (ha : b.a < 2 ^ 32) (hx : b.x < 2 ^ 32) :
    deserialize_block (serializeBlk b) = b := by
  obtain ⟨a, x, d, f⟩ := b
  simp only at hd ha hx
  have l4a : (toBytesBE 4 a).length = 4 := toBytesBE_length 4 a
  have l4x : (toBytesBE 4 x).length = 4 := toBytesBE_length 4 x
  have hser : serializeBlk ⟨a, x, d, f⟩ =
      toBytesBE 4 a ++ (toBytesBE 4 x ++ (d ++ [if f then 49 else 48])) := by
    simp [serializeBlk]
  have t1 : (serializeBlk ⟨a, x, d, f⟩).take 4 = toBytesBE 4 a := by
    rw [hser]; exact List.take_left' l4a
  have t2 : (serializeBlk ⟨a, x, d, f⟩).drop 4 =
      toBytesBE 4 x ++ (d ++ [if f then 49 else 48]) := by
    rw [hser]; exact List.drop_left' l4a
  have t3 : (serializeBlk ⟨a, x, d, f⟩).drop 8 = d ++ [if f then 49 else 48] := by
    have h8 : ((serializeBlk ⟨a, x, d, f⟩).drop 4).drop 4 =
        (serializeBlk ⟨a, x, d, f⟩).drop 8 := by rw [List.drop_drop]
    rw [← h8, t2]; exact List.drop_left' l4x
  have t4 : (serializeBlk ⟨a, x, d, f⟩).drop 12 = [if f then 49 else 48] := by
    have h12 : ((serializeBlk ⟨a, x, d, f⟩).drop 8).drop 4 =
        (serializeBlk ⟨a, x, d, f⟩).drop 12 := by rw [List.drop_drop]
    rw [← h12, t3]; exact List.drop_left' hd
  unfold deserialize_block
  rw [t1, t2, t3, t4]
  have tx : (toBytesBE 4 x ++ (d ++ [if f then 49 else 48])).take 4 = toBytesBE 4 x :=
    List.take_left' l4x
  have td : (d ++ [if f then 49 else 48]).take 4 = d := List.take_left' hd
  rw [tx, td]
  have tf : (([if f then 49 else 48] : List Nat).take 1) = [if f then 49 else 48] := by
    cases f <;> rfl
  rw [tf, fromBytesBE_toBytesBE a ha, fromBytesBE_toBytesBE x hx]
  cases f <;> simp

lemma sepFree_tail {b : Nat} {l : List Nat} (h : sepFree (b :: l) = true) :
    sepFree l = true := by
  cases l with
  | nil => rfl
  | cons c r =>
    have := h
    simp only [sepFree, Bool.and_eq_true] at this
    exact this.2

lemma sepFree_head {b c : Nat} {l : List Nat} (h : sepFree (b :: c :: l) = true) :
    ¬(b = 124 ∧ c = 124) := by
  simp only [sepFree, Bool.and_eq_true, Bool.not_eq_true'] at h
  intro ⟨hb, hc⟩
  subst hb; subst hc
  simp at h

lemma splitOnSep_cons (b : Nat) (rest : List Nat) :
    splitOnSep (b :: rest) =
      if b = 124 then
        match rest with
        | [] => [[b]]
        | c :: rest2 =>
          if c = 124 then [] :: splitOnSep rest2 else consHead b (splitOnSep (c :: rest2))
      else consHead b (splitOnSep rest) := by
  rw [splitOnSep.eq_def]

lemma splitOnSep_sep_sep (rest : List Nat) :
    splitOnSep (124 :: 124 :: rest) = [] :: splitOnSep rest := by
  rw [splitOnSep_cons]
  simp

lemma splitOnSep_single (p : List Nat) (hp : sepFree p = true) : splitOnSep p = [p] := by
  induction p with
  | nil => rfl
  | cons b rest ih =>
    cases rest with
    | nil =>
      by_cases hb : b = 124
      · subst hb; rfl
      · rw [splitOnSep_cons, if_neg hb]; rfl
    | cons c r2 =>
      have hfree : sepFree (c :: r2) = true := sepFree_tail hp
      have hrec := ih hfree
      by_cases hb : b = 124
      · have hc : ¬c = 124 := fun hc => sepFree_head hp ⟨hb, hc⟩
        subst hb
        rw [splitOnSep_cons, if_pos rfl]
        show (if c = 124 then [] :: splitOnSep r2 else consHead 124 (splitOnSep (c :: r2))) = _
        rw [if_neg hc, hrec]
        rfl
      · rw [splitOnSep_cons, if_neg hb, hrec]
        rfl

lemma splitOnSep_append_sep (p rest : List Nat) (hp : sepFree p = true)
    (hl : p.getLast? ≠ some 124) :
    splitOnSep (p ++ 124 :: 124 :: rest) = p :: splitOnSep rest := by
  induction p with
  | nil => simpa using splitOnSep_sep_sep rest
  | cons b p ih =>
    cases p with
    | nil =>
      have hb : ¬b = 124 := by
        intro hb; subst hb; simp at hl
      rw [List.cons_append, List.nil_append, splitOnSep_cons, if_neg hb,
        splitOnSep_sep_sep]
      rfl
    | cons c p2 =>
      have hfree : sepFree (c :: p2) = true := sepFree_tail hp
      have hlast : (c :: p2).getLast? ≠ some 124 := by
        simpa [List.getLast?_cons_cons] using hl
      have hrec := ih hfree hlast
      rw [List.cons_append] at hrec
      by_cases hb : b = 124
      · have hc : ¬c = 124 := fun hc => sepFree_head hp ⟨hb, hc⟩
        subst hb
        rw [List.cons_append, List.cons_append, splitOnSep_cons, if_pos rfl]
        show (if c = 124 then [] :: splitOnSep (p2 ++ 124 :: 124 :: rest)
          else consHead 124 (splitOnSep (c :: (p2 ++ 124 :: 124 :: rest)))) = _
        rw [if_neg hc]
        show consHead 124 (splitOnSep (c :: (p2 ++ 124 :: 124 :: rest))) =
          (124 :: c :: p2) :: splitOnSep rest
        rw [hrec]
        rfl
      · rw [List.cons_append, splitOnSep_cons, if_neg hb]
        show consHead b (splitOnSep (c :: (p2 ++ 124 :: 124 :: rest))) =
          (b :: c :: p2) :: splitOnSep rest
        rw [hrec]
        rfl

lemma intercalate_sep_cons₂ (p q : List Nat) (ps : List (List Nat)) :
    List.intercalate sep (p :: q :: ps) = p ++ 124 :: 124 :: List.intercalate sep (q :: ps) := by
  have h1 : List.intercalate sep (p :: q :: ps) =
      p ++ (sep ++ List.intercalate sep (q :: ps)) := by
    simp [List.intercalate, List.intersperse]
  rw [h1]
  rfl

lemma splitOnSep_intercalate (ps : List (List Nat))
    (h : ∀ p ∈ ps, sepFree p = true ∧ p.getLast? ≠ some 124) (hne : ps ≠ []) :
    splitOnSep (List.intercalate sep ps) = ps := by
  induction ps with
  | nil => exact absurd rfl hne
  | cons p ps ih =>
    cases ps with
    | nil =>
      have h1 : List.intercalate sep [p] = p := by simp [List.intercalate]
      rw [h1, splitOnSep_single p (h p (by simp)).1]
    | cons q ps2 =>
      rw [intercalate_sep_cons₂]
      have hp := h p (by simp)
      rw [splitOnSep_append_sep p _ hp.1 hp.2]
      rw [ih (fun r hr => h r (by simp [hr])) (by simp)]

lemma serializeBlk_getLast (b : Blk) :
    (serializeBlk b).getLast? = some (if b.dummy_flag then 49 else 48) := by
  have : serializeBlk b =
      (toBytesBE 4 b.a ++ toBytesBE 4 b.x ++ b.data) ++ [if b.dummy_flag then 49 else 48] := by
    simp [serializeBlk]
  rw [this]
  simp

lemma serializeBlk_getLast_ne (b : Blk) : (serializeBlk b).getLast? ≠ some 124 := by
  rw [serializeBlk_getLast]
  cases b.dummy_flag <;> simp

/-- Bucket-codec round trip: when every block of the bucket serializes to a
separator-free byte string, splitting the joined payload on `"||"` recovers
exactly the serialized pieces, and deserializing recovers the blocks. -/
lemma decode_encode (bks : List Blk) (hne : bks ≠ [])
    (h : ∀ b ∈ bks, sepFree (serializeBlk b) = true ∧ b.data.length = 4 ∧
      b.a < 2 ^ 32 ∧ b.x < 2 ^ 32) :
    decode_bucket (encode_bucket bks) = bks := by
  unfold decode_bucket encode_bucket
  rw [splitOnSep_intercalate (bks.map serializeBlk)]
  · rw [List.map_map]
    have : ∀ b ∈ bks, (deserialize_block ∘ serializeBlk) b = id b := by
      intro b hb
      obtain ⟨h1, h2, h3, h4⟩ := h b hb
      simp [Function.comp, deserialize_serialize b h2 h3 h4]
    rw [List.map_congr_left this, List.map_id]
  · intro p hp
    obtain ⟨b, hb, rfl⟩ := List.mem_map.mp hp
    exact ⟨(h b hb).1, serializeBlk_getLast_ne b⟩
  · simpa using hne

lemma intercalate_sep_length (ps : List (List Nat)) (n : Nat)
    (h : ∀ p ∈ ps, p.length = n) (hne : ps ≠ []) :
    (List.intercalate sep ps).length = n * ps.length + 2 * (ps.length - 1) := by
  induction ps with
  | nil => exact absurd rfl hne
  | cons p ps ih =>
    cases ps with
    | nil => simp [List.intercalate, h p (by simp)]
    | cons q ps2 =>
      rw [intercalate_sep_cons₂]
      have hr := ih (fun r hr => h r (by simp [hr])) (by simp)
      have hp' : p.length = n := h p (by simp)
      simp only [List.length_append, List.length_cons, hr, hp', Nat.add_sub_cancel]
      ring

/-- The fixed bucket payload length: `Z` pieces of 13 bytes joined with the
two-byte separator. -/
lemma encode_bucket_length (bks : List Blk) (Z : Nat) (hz : bks.length = Z)
    (h1 : 1 ≤ Z) (h : ∀ b ∈ bks, b.data.length = 4) :
    (encode_bucket bks).length = Z * 13 + 2 * (Z - 1) := by
  unfold encode_bucket
  rw [intercalate_sep_length (bks.map serializeBlk) 13]
  · simp [hz, Nat.mul_comm]
  · intro p hp
    obtain ⟨b, hb, rfl⟩ := List.mem_map.mp hp
    exact serializeBlk_length b (h b hb)
  · intro hemp
    rw [List.map_eq_nil_iff] at hemp
    rw [hemp] at hz
    simp at hz
    omega

/-! ## Geometry lemmas -/

/-- Value of an MSB-first bit string. -/
def msbVal : List Bool → Nat
  | [] => 0
  | b :: bs => (cond b 1 0) * 2 ^ bs.length + msbVal bs

lemma msbVal_snoc (l : List Bool) (b : Bool) :
    msbVal (l ++ [b]) = 2 * msbVal l + cond b 1 0 := by
  induction l with
  | nil => cases b <;> simp [msbVal]
  | cons c l ih =>
    simp only [List.cons_append, msbVal, ih, List.append_eq, List.length_append,
      List.length_cons, List.length_nil, pow_succ, pow_zero]
    ring

lemma natBitsF_congr (n : Nat) : ∀ f1 f2 : Nat, n ≤ f1 → n ≤ f2 →
    natBitsF f1 n = natBitsF f2 n := by
  induction n using Nat.strong_induction_on with
  | _ n ih =>
    intro f1 f2 h1 h2
    match n, h1, h2 with
    | 0, _, _ => rcases f1 with _ | g1 <;> rcases f2 with _ | g2 <;> rfl
    | n + 1, h1, h2 =>
      obtain ⟨g1, rfl⟩ : ∃ g1, f1 = g1 + 1 := ⟨f1 - 1, by omega⟩
      obtain ⟨g2, rfl⟩ : ∃ g2, f2 = g2 + 1 := ⟨f2 - 1, by omega⟩
      show (decide ((n + 1) % 2 = 1)) :: natBitsF g1 ((n + 1) / 2) =
        (decide ((n + 1) % 2 = 1)) :: natBitsF g2 ((n + 1) / 2)
      rw [ih ((n + 1) / 2) (by omega) g1 g2 (by omega) (by omega)]

lemma natBits_succ (n : Nat) :
    natBits (n + 1) = (decide ((n + 1) % 2 = 1)) :: natBits ((n + 1) / 2) := by
  show (decide ((n + 1) % 2 = 1)) :: natBitsF n ((n + 1) / 2) =
    (decide ((n + 1) % 2 = 1)) :: natBitsF ((n + 1) / 2) ((n + 1) / 2)
  rw [natBitsF_congr ((n + 1) / 2) n ((n + 1) / 2) (by omega) (by omega)]

lemma pathToRootF_congr (n : Nat) : ∀ f1 f2 : Nat, n ≤ f1 → n ≤ f2 →
    pathToRootF f1 n = pathToRootF f2 n := by
  induction n using Nat.strong_induction_on with
  | _ n ih =>
    intro f1 f2 h1 h2
    match n, h1, h2 with
    | 0, _, _ => rcases f1 with _ | g1 <;> rcases f2 with _ | g2 <;> rfl
    | n + 1, h1, h2 =>
      obtain ⟨g1, rfl⟩ : ∃ g1, f1 = g1 + 1 := ⟨f1 - 1, by omega⟩
      obtain ⟨g2, rfl⟩ : ∃ g2, f2 = g2 + 1 := ⟨f2 - 1, by omega⟩
      show (n + 1) :: pathToRootF g1 (n / 2) = (n + 1) :: pathToRootF g2 (n / 2)
      rw [ih (n / 2) (by omega) g1 g2 (by omega) (by omega)]

lemma pathToRoot_succ (i : Nat) :
    pathToRoot (i + 1) = (i + 1) :: pathToRoot (i / 2) := by
  show (i + 1) :: pathToRootF i (i / 2) = (i + 1) :: pathToRootF (i / 2) (i / 2)
  rw [pathToRootF_congr (i / 2) i (i / 2) (by omega) (by omega)]

lemma clog2F_eq_clog (n : Nat) : ∀ fuel : Nat, n ≤ fuel + 1 →
    clog2F fuel n = Nat.clog 2 n := by
  induction n using Nat.strong_induction_on with
  | _ n ih =>
    intro fuel h
    match n, h with
    | 0, _ =>
      have h0 : clog2F fuel 0 = 0 := by rcases fuel with _ | g <;> rfl
      rw [h0, Nat.clog_zero_right]
    | 1, _ =>
      have h1f : clog2F fuel 1 = 0 := by rcases fuel with _ | g <;> rfl
      rw [h1f, Nat.clog_one_right]
    | n + 2, h =>
      obtain ⟨g, rfl⟩ : ∃ g, fuel = g + 1 := ⟨fuel - 1, by omega⟩
      show clog2F g ((n + 3) / 2) + 1 = _
      rw [ih ((n + 3) / 2) (by omega) g (by omega)]
      have harg : (n + 2 + 2 - 1) / 2 = (n + 3) / 2 := by omega
      conv_rhs => rw [Nat.clog_of_two_le (by norm_num) (by omega), harg]

lemma clog2_eq_clog (n : Nat) : clog2 n = Nat.clog 2 n :=
  clog2F_eq_clog n n (by omega)

lemma heightL_eq_clog (c : Cfg) : heightL c = Nat.clog 2 (nbuckets c) - 1 := by
  unfold heightL
  rw [clog2_eq_clog]

lemma msbVal_natBits_reverse (x : Nat) : msbVal (natBits x).reverse = x := by
  induction x using Nat.strong_induction_on with
  | _ x ih =>
    match x with
    | 0 => simp [show natBits 0 = [] from rfl, msbVal]
    | n + 1 =>
      rw [natBits_succ]
      simp only [List.reverse_cons, msbVal_snoc]
      rw [ih ((n + 1) / 2) (by omega)]
      rcases Nat.mod_two_eq_zero_or_one (n + 1) with h | h <;> simp [h] <;> omega

lemma msbVal_zfill (L : Nat) (l : List Bool) : msbVal (zfillBits L l) = msbVal l := by
  unfold zfillBits
  induction (L - l.length) with
  | zero => simp
  | succ k ih => simpa [msbVal, List.replicate_succ] using ih

lemma msbVal_bitsOf (L x : Nat) : msbVal (bitsOf L x) = x := by
  unfold bitsOf binDigits
  rw [msbVal_zfill]
  by_cases hx : x = 0
  · simp [hx, msbVal]
  · simp [hx, msbVal_natBits_reverse]

lemma natBits_length_le (k x : Nat) (h : x < 2 ^ k) : (natBits x).length ≤ k := by
  induction k generalizing x with
  | zero =>
    have hx0 : x = 0 := by omega
    subst hx0
    simp [show natBits 0 = [] from rfl]
  | succ k ih =>
    match x with
    | 0 => simp [show natBits 0 = [] from rfl]
    | n + 1 =>
      rw [natBits_succ]
      simp only [List.length_cons]
      have : (n + 1) / 2 < 2 ^ k := by
        rw [pow_succ] at h
        omega
      have := ih ((n + 1) / 2) this
      omega

lemma bitsOf_length (L x : Nat) (hL : 1 ≤ L) (hx : x < 2 ^ L) :
    (bitsOf L x).length = L := by
  unfold bitsOf zfillBits binDigits
  by_cases h0 : x = 0
  · simp [h0]; omega
  · simp only [h0, if_false]
    have := natBits_length_le L x hx
    simp [this]

lemma walkEnd_cons (i : Nat) (b : Bool) (bs : List Bool) :
    walkEnd i (b :: bs) = walkEnd (2 * i + 1 + cond b 1 0) bs := by
  cases b <;> simp [walkEnd]

lemma walkIndices_cons (i : Nat) (b : Bool) (bs : List Bool) :
    walkIndices i (b :: bs) = i :: walkIndices (2 * i + 1 + cond b 1 0) bs := by
  cases b <;> simp [walkIndices]

lemma walkEnd_snoc (i : Nat) (bs : List Bool) (b : Bool) :
    walkEnd i (bs ++ [b]) = 2 * walkEnd i bs + 1 + cond b 1 0 := by
  induction bs generalizing i with
  | nil => cases b <;> simp [walkEnd]
  | cons c bs ih =>
    rw [List.cons_append, walkEnd_cons, walkEnd_cons, ih]

lemma walkIndices_snoc (i : Nat) (bs : List Bool) (b : Bool) :
    walkIndices i (bs ++ [b]) = walkIndices i bs ++ [2 * walkEnd i bs + 1 + cond b 1 0] := by
  induction bs generalizing i with
  | nil => cases b <;> simp [walkIndices, walkEnd]
  | cons c bs ih =>
    rw [List.cons_append, walkIndices_cons, ih, walkIndices_cons, walkEnd_cons]
    rfl

lemma walkEnd_eq (bs : List Bool) (i : Nat) :
    walkEnd i bs = i * 2 ^ bs.length + (2 ^ bs.length - 1) + msbVal bs := by
  induction bs generalizing i with
  | nil => simp [walkEnd, msbVal]
  | cons b bs ih =>
    rw [walkEnd_cons, ih]
    simp only [List.length_cons, msbVal, pow_succ]
    have h1 : 1 ≤ 2 ^ bs.length := Nat.one_le_two_pow
    cases b <;> simp <;> ring_nf <;> omega

lemma pathToRoot_parent (m c : Nat) (hc : c ≤ 1) :
    pathToRoot (2 * m + 1 + c) = (2 * m + 1 + c) :: pathToRoot m := by
  have h : 2 * m + 1 + c = (2 * m + c) + 1 := by omega
  rw [h, pathToRoot_succ]
  have : (2 * m + c) / 2 = m := by omega
  rw [this]

lemma reverse_walkIndices (bs : List Bool) :
    (walkIndices 0 bs).reverse = pathToRoot (walkEnd 0 bs) := by
  induction bs using List.reverseRecOn with
  | nil => rfl
  | append_singleton bs b ih =>
    rw [walkIndices_snoc, walkEnd_snoc, List.reverse_append, pathToRoot_parent _ _ (by cases b <;> simp)]
    simp [ih]

lemma pathToRoot_le (n : Nat) : ∀ j ∈ pathToRoot n, j ≤ n := by
  induction n using Nat.strong_induction_on with
  | _ n ih =>
    match n with
    | 0 =>
      intro j hj
      simp [show pathToRoot 0 = [0] from rfl] at hj
      omega
    | m + 1 =>
      intro j hj
      rw [pathToRoot_succ] at hj
      rcases List.mem_cons.mp hj with h | h
      · omega
      · have := ih (m / 2) (by omega) j h
        omega

lemma pathToRoot_length (L x : Nat) (hx : x < 2 ^ L) :
    (pathToRoot (2 ^ L - 1 + x)).length = L + 1 := by
  induction L generalizing x with
  | zero =>
    have hx0 : x = 0 := by omega
    subst hx0
    rfl
  | succ L ih =>
    have hP : 1 ≤ 2 ^ L := Nat.one_le_two_pow
    have hnode : 2 ^ (L + 1) - 1 + x = (2 ^ (L + 1) - 2 + x) + 1 := by
      rw [pow_succ]; omega
    rw [hnode, pathToRoot_succ]
    have hdiv : (2 ^ (L + 1) - 2 + x) / 2 = 2 ^ L - 1 + x / 2 := by
      rw [pow_succ]; omega
    rw [hdiv]
    have hx2 : x / 2 < 2 ^ L := by
      rw [pow_succ] at hx; omega
    simp [ih (x / 2) hx2]

lemma pathToRoot_nodup (n : Nat) : (pathToRoot n).Nodup := by
  induction n using Nat.strong_induction_on with
  | _ n ih =>
    match n with
    | 0 => simp [show pathToRoot 0 = [0] from rfl]
    | m + 1 =>
      rw [pathToRoot_succ]
      refine List.nodup_cons.mpr ⟨?_, ih (m / 2) (by omega)⟩
      intro hmem
      have := pathToRoot_le (m / 2) _ hmem
      omega

lemma walkIndices_bound (bs : List Bool) (i B : Nat) (hB : i + 2 ≤ B) :
    ∀ j ∈ walkIndices i bs, j + 2 ≤ B * 2 ^ bs.length := by
  induction bs generalizing i B with
  | nil =>
    intro j hj
    simp [walkIndices] at hj
    subst hj
    simpa using hB
  | cons b bs ih =>
    intro j hj
    rw [walkIndices_cons] at hj
    have h1 : 1 ≤ 2 ^ bs.length := Nat.one_le_two_pow
    rcases List.mem_cons.mp hj with h | h
    · subst h
      simp only [List.length_cons, pow_succ]
      nlinarith
    · have hrec := ih (2 * i + 1 + cond b 1 0) (2 * B) (by cases b <;> simp <;> omega) j h
      simp only [List.length_cons, pow_succ]
      have e : B * (2 ^ bs.length * 2) = 2 * B * 2 ^ bs.length := by ring
      rw [e]
      exact hrec

lemma first_leaf_eq (L : Nat) : 2 ^ (L + 1) - 1 - 2 ^ L = 2 ^ L - 1 := by
  have h : 1 ≤ 2 ^ L := Nat.one_le_two_pow
  rw [pow_succ]
  omega

lemma get_path_eq (x L : Nat) : get_path_leaf_to_root x L = pathToRoot (2 ^ L - 1 + x) := by
  unfold get_path_leaf_to_root
  rw [first_leaf_eq]

lemma heightL_pow_lt (c : Cfg) (h2 : 2 ≤ nbuckets c) : 2 ^ heightL c < nbuckets c := by
  rw [heightL_eq_clog]
  exact Nat.pow_pred_clog_lt_self (by norm_num) (by omega)

lemma nbuckets_le_pow (c : Cfg) (h2 : 2 ≤ nbuckets c) :
    nbuckets c ≤ 2 ^ (heightL c + 1) := by
  have hpos : 0 < Nat.clog 2 (nbuckets c) := Nat.clog_pos (by norm_num) (by omega)
  have hle := Nat.le_pow_clog (b := 2) (by norm_num) (nbuckets c)
  rw [heightL_eq_clog]
  have h : Nat.clog 2 (nbuckets c) - 1 + 1 = Nat.clog 2 (nbuckets c) := by omega
  rw [h]
  exact hle

lemma nbuckets_of_heightL_zero (c : Cfg) (h2 : 2 ≤ nbuckets c) (hL : heightL c = 0) :
    nbuckets c = 2 := by
  have h1 := heightL_pow_lt c h2
  have h2' := nbuckets_le_pow c h2
  rw [hL] at h1 h2'
  simp at h1 h2'
  omega

lemma readIndices_L0 (c : Cfg) (hL : heightL c = 0) : readIndices c 0 = [0, 1] := by
  unfold readIndices
  rw [hL]
  rfl

lemma readIndices_eq_reverse_path (c : Cfg) (x : Nat) (hL : 1 ≤ heightL c)
    (hx : x < 2 ^ heightL c) :
    readIndices c x = (get_path_leaf_to_root x (heightL c)).reverse := by
  unfold readIndices
  rw [get_path_eq]
  have he : walkEnd 0 (bitsOf (heightL c) x) = 2 ^ heightL c - 1 + x := by
    rw [walkEnd_eq, bitsOf_length _ _ hL hx, msbVal_bitsOf]
    simp
  rw [← he, ← reverse_walkIndices, List.reverse_reverse]

lemma writeIndices_le (x L : Nat) :
    ∀ j ∈ get_path_leaf_to_root x L, j ≤ 2 ^ L - 1 + x := by
  rw [get_path_eq]
  exact pathToRoot_le _

lemma readIndices_lt_nb (c : Cfg) (x : Nat) (h2 : 2 ≤ nbuckets c)
    (hnb : 2 ^ (heightL c + 1) - 1 ≤ nbuckets c) (hx : x < 2 ^ heightL c) :
    ∀ j ∈ readIndices c x, j < nbuckets c := by
  by_cases hL : heightL c = 0
  · have hx0 : x = 0 := by rw [hL] at hx; omega
    subst hx0
    rw [readIndices_L0 c hL]
    intro j hj
    simp at hj
    rcases hj with h | h <;> omega
  · have hL1 : 1 ≤ heightL c := by omega
    intro j hj
    have hb := walkIndices_bound (bitsOf (heightL c) x) 0 2 (by omega) j hj
    rw [bitsOf_length _ _ hL1 hx] at hb
    have hp : (2 : Nat) * 2 ^ heightL c = 2 ^ (heightL c + 1) := by
      rw [pow_succ]; ring
    omega

lemma writeIndices_lt_nb (c : Cfg) (x : Nat)
    (hnb : 2 ^ (heightL c + 1) - 1 ≤ nbuckets c) (hx : x < 2 ^ heightL c) :
    ∀ j ∈ get_path_leaf_to_root x (heightL c), j < nbuckets c := by
  intro j hj
  have h1 := writeIndices_le x (heightL c) j hj
  have hp : (2 : Nat) * 2 ^ heightL c = 2 ^ (heightL c + 1) := by
    rw [pow_succ]; ring
  have h0 : 1 ≤ 2 ^ heightL c := Nat.one_le_two_pow
  omega

lemma writeIndices_subset_read (c : Cfg) (x : Nat) (hx : x < 2 ^ heightL c) :
    ∀ j ∈ get_path_leaf_to_root x (heightL c), j ∈ readIndices c x := by
  by_cases hL : heightL c = 0
  · have hx0 : x = 0 := by rw [hL] at hx; omega
    subst hx0
    rw [readIndices_L0 c hL, get_path_eq, hL]
    decide
  · intro j hj
    rw [readIndices_eq_reverse_path c x (by omega) hx]
    simpa using hj

lemma read_off_write_no_path (c : Cfg) (x : Nat) (hx : x < 2 ^ heightL c)
    (j : Nat) (hjr : j ∈ readIndices c x)
    (hjw : j ∉ get_path_leaf_to_root x (heightL c)) :
    ∀ leaf, leaf < 2 ^ heightL c → j ∉ get_path_leaf_to_root leaf (heightL c) := by
  by_cases hL : heightL c = 0
  · have hx0 : x = 0 := by rw [hL] at hx; omega
    subst hx0
    rw [readIndices_L0 c hL] at hjr
    rw [get_path_eq, hL] at hjw
    intro leaf hleaf
    have hleaf0 : leaf = 0 := by rw [hL] at hleaf; omega
    subst hleaf0
    rw [get_path_eq, hL]
    exact hjw
  · exfalso
    apply hjw
    rw [readIndices_eq_reverse_path c x (by omega) hx] at hjr
    simpa using hjr

lemma writeIndices_nodup (x L : Nat) : (get_path_leaf_to_root x L).Nodup := by
  rw [get_path_eq]
  exact pathToRoot_nodup _

lemma readIndices_nodup (c : Cfg) (x : Nat) (hx : x < 2 ^ heightL c) :
    (readIndices c x).Nodup := by
  by_cases hL : heightL c = 0
  · have hx0 : x = 0 := by rw [hL] at hx; omega
    subst hx0
    rw [readIndices_L0 c hL]
    simp
  · rw [readIndices_eq_reverse_path c x (by omega) hx]
    exact List.nodup_reverse.mpr (writeIndices_nodup x (heightL c))

lemma writeIndices_length (x L : Nat) (hx : x < 2 ^ L) :
    (get_path_leaf_to_root x L).length = L + 1 := by
  rw [get_path_eq]
  exact pathToRoot_length L x hx

lemma getD_mem (l : List Nat) (k : Nat) (hk : k < l.length) (dflt : Nat) :
    l.getD k dflt ∈ l := by
  rw [List.getD_eq_getElem l dflt hk]
  exact List.getElem_mem hk

/-! ## Well-formedness invariant -/

/-- Intrinsic well-formedness of one block: 4-byte payload, field values in
`to_bytes` range, separator-free serialization, and the address discipline
(dummy blocks carry address `N + 1`, real blocks a stored address). -/
def blkOKb (c : Cfg) (b : Blk) : Bool :=
  (b.data.length == 4) && decide (b.a < 2 ^ 32) && decide (b.x < 2 ^ 32) &&
    sepFree (serializeBlk b) &&
    (if b.dummy_flag then b.a == c.N + 1 else decide (b.a < c.N))

/-- Configuration constraints under which Access is verified: at least two
buckets, a tree array long enough for every sampled leaf's path
(`num_buckets ≥ 2^(L+1) - 1`, which holds in particular when `num_buckets`
is a power of two), addresses in `to_bytes(4)` range, and a separator-free
dummy-block serialization. -/
def CfgOK (c : Cfg) : Prop :=
  1 ≤ c.Z ∧ 2 ≤ nbuckets c ∧ 2 ^ (heightL c + 1) - 1 ≤ nbuckets c ∧
    c.N + 2 ≤ 2 ^ 32 ∧ sepFree (serializeBlk (dummyBlk c)) = true

/-- Well-formedness of tree slot `i`: it stores the encryption, under key and
associated data `i` and the currently remembered nonce, of an encoded bucket
of exactly `Z` well-formed blocks, every real one lying on the path of its
current position-map leaf. -/
def NodeWF (c : Cfg) (st : OState) (i : Nat) : Prop :=
  ∃ bks : List Blk,
    st.tree.get? i = some (encryptB i (st.nonces i) (encode_bucket bks)) ∧
    bks.length = c.Z ∧
    ∀ b ∈ bks, blkOKb c b = true ∧
      (b.dummy_flag = false → i ∈ get_path_leaf_to_root (st.pos b.a) (heightL c))

/-- The client/server invariant maintained across clean Accesses: correct
tree size, in-range position map, a stash of well-formed real blocks, every
bucket well formed, and at most one real block per address in the system. -/
def WF (c : Cfg) (st : OState) : Prop :=
  st.tree.length = nbuckets c ∧
  (∀ a, a < c.N → st.pos a < 2 ^ heightL c) ∧
  (∀ b ∈ st.stash, blkOKb c b = true ∧ b.dummy_flag = false) ∧
  (∀ i, i < nbuckets c → NodeWF c st i) ∧
  (∀ a, a < c.N → countO st a ≤ 1)

lemma blkOKb_spec (c : Cfg) (b : Blk) (h : blkOKb c b = true) :
    b.data.length = 4 ∧ b.a < 2 ^ 32 ∧ b.x < 2 ^ 32 ∧
      sepFree (serializeBlk b) = true ∧
      (b.dummy_flag = true → b.a = c.N + 1) ∧ (b.dummy_flag = false → b.a < c.N) := by
  unfold blkOKb at h
  cases hf : b.dummy_flag <;> rw [hf] at h <;>
    simp only [Bool.and_eq_true, beq_iff_eq, decide_eq_true_eq, if_true, if_false] at h
  · obtain ⟨⟨⟨⟨h1, h2⟩, h3⟩, h4⟩, h5⟩ := h
    exact ⟨h1, h2, h3, h4, by simp [hf], fun _ => by simpa using h5⟩
  · obtain ⟨⟨⟨⟨h1, h2⟩, h3⟩, h4⟩, h5⟩ := h
    exact ⟨h1, h2, h3, h4, fun _ => by simpa using h5, by simp [hf]⟩

lemma dummyBlk_OK (c : Cfg) (hC : CfgOK c) : blkOKb c (dummyBlk c) = true := by
  obtain ⟨_, _, _, hN, hsep⟩ := hC
  unfold blkOKb dummyBlk
  simp only [dummyBlk] at hsep
  simp [hsep]
  omega

/-! ## Generic list helper lemmas -/

lemma find?_congr_pred {α : Type} (p q : α → Bool) (l : List α)
    (h : ∀ x ∈ l, p x = q x) : l.find? p = l.find? q := by
  induction l with
  | nil => rfl
  | cons a l ih =>
    simp only [List.find?]
    rw [h a (by simp)]
    cases hq : q a
    · exact ih (fun x hx => h x (by simp [hx]))
    · rfl

lemma countP_cons_true {α : Type} (p : α → Bool) (a : α) (l : List α)
    (h : p a = true) : (a :: l).countP p = l.countP p + 1 := by
  rw [List.countP_cons, h]
  simp

lemma countP_cons_false {α : Type} (p : α → Bool) (a : α) (l : List α)
    (h : p a = false) : (a :: l).countP p = l.countP p := by
  rw [List.countP_cons, h]
  simp

lemma countP_one_unique {α : Type} (p : α → Bool) (l : List α) (h : l.countP p = 1)
    {b1 b2 : α} (h1 : b1 ∈ l) (h2 : b2 ∈ l) (hp1 : p b1 = true) (hp2 : p b2 = true) :
    b1 = b2 := by
  induction l with
  | nil => simp at h1
  | cons a l ih =>
    cases hpa : p a
    · rw [countP_cons_false p a l hpa] at h
      have ha1 : b1 ∈ l := by
        rcases List.mem_cons.mp h1 with rfl | hm
        · rw [hp1] at hpa; cases hpa
        · exact hm
      have ha2 : b2 ∈ l := by
        rcases List.mem_cons.mp h2 with rfl | hm
        · rw [hp2] at hpa; cases hpa
        · exact hm
      exact ih h ha1 ha2
    · rw [countP_cons_true p a l hpa] at h
      have hzero : l.countP p = 0 := by omega
      have hnone : ∀ x ∈ l, ¬p x = true := List.countP_eq_zero.mp hzero
      have ha1 : b1 = a := by
        rcases List.mem_cons.mp h1 with rfl | hm
        · rfl
        · exact absurd hp1 (hnone b1 hm)
      have ha2 : b2 = a := by
        rcases List.mem_cons.mp h2 with rfl | hm
        · rfl
        · exact absurd hp2 (hnone b2 hm)
      rw [ha1, ha2]

lemma find?_eq_of_unique {α : Type} (p : α → Bool) (l : List α) (v : α)
    (hv : v ∈ l) (hpv : p v = true) (huniq : ∀ b ∈ l, p b = true → b = v) :
    l.find? p = some v := by
  induction l with
  | nil => simp at hv
  | cons a l ih =>
    cases hpa : p a
    · have hav : ¬a = v := fun h => by rw [h, hpv] at hpa; cases hpa
      have hv' : v ∈ l := by
        rcases List.mem_cons.mp hv with rfl | hm
        · exact absurd rfl hav
        · exact hm
      rw [List.find?_cons_of_neg _ (by simp [hpa])]
      exact ih hv' (fun b hb hpb => huniq b (by simp [hb]) hpb)
    · rw [List.find?_cons_of_pos _ hpa]
      rw [huniq a (by simp) hpa]

lemma countP_one_decomp {α : Type} (p : α → Bool) (l : List α) (h : l.countP p = 1) :
    ∃ l1 b l2, l = l1 ++ b :: l2 ∧ p b = true ∧ l1.countP p = 0 ∧ l2.countP p = 0 := by
  induction l with
  | nil => simp at h
  | cons a l ih =>
    cases hpa : p a
    · rw [countP_cons_false p a l hpa] at h
      obtain ⟨l1, b, l2, rfl, hb, h1, h2⟩ := ih h
      exact ⟨a :: l1, b, l2, rfl, hb, by rw [countP_cons_false p a l1 hpa, h1], h2⟩
    · rw [countP_cons_true p a l hpa] at h
      exact ⟨[], a, l, rfl, hpa, by simp, by omega⟩

lemma findIdx?_eq_none_of_countP {α : Type} (p : α → Bool) (l : List α)
    (h : l.countP p = 0) : l.findIdx? p = none := by
  induction l with
  | nil => rfl
  | cons a l ih =>
    cases hpa : p a
    · rw [countP_cons_false p a l hpa] at h
      simp [List.findIdx?_cons, hpa, ih h]
    · rw [countP_cons_true p a l hpa] at h
      omega

lemma findIdx?_append_cons {α : Type} (p : α → Bool) (l1 : List α) (b : α) (l2 : List α)
    (h0 : l1.countP p = 0) (hb : p b = true) :
    (l1 ++ b :: l2).findIdx? p = some l1.length := by
  induction l1 with
  | nil => simp [List.findIdx?_cons, hb]
  | cons a l1 ih =>
    cases hpa : p a
    · rw [countP_cons_false p a l1 hpa] at h0
      rw [List.cons_append]
      simp [List.findIdx?_cons, hpa, ih h0]
    · rw [countP_cons_true p a l1 hpa] at h0
      omega

lemma set_append_cons {α : Type} (l1 : List α) (b v : α) (l2 : List α) :
    (l1 ++ b :: l2).set l1.length v = l1 ++ v :: l2 := by
  induction l1 with
  | nil => rfl
  | cons a l1 ih => simp [List.set, ih]

lemma eraseIdx_append_cons {α : Type} (l1 : List α) (b : α) (l2 : List α) :
    (l1 ++ b :: l2).eraseIdx l1.length = l1 ++ l2 := by
  induction l1 with
  | nil => rfl
  | cons a l1 ih => simpa [List.eraseIdx] using ih

lemma countP_replicate_zero {α : Type} (p : α → Bool) (d : α) (k : Nat)
    (h : p d = false) : (List.replicate k d).countP p = 0 := by
  induction k with
  | zero => rfl
  | succ k ih => simp [List.replicate_succ, List.countP_cons, h, ih]

lemma countP_flatMap {α β : Type} (p : β → Bool) (f : α → List β) (l : List α) :
    (l.flatMap f).countP p = (l.map (fun x => (f x).countP p)).sum := by
  induction l with
  | nil => rfl
  | cons a l ih => simp [List.flatMap_cons, List.countP_append, ih]

lemma sum_map_split (R S : List Nat) (g : Nat → Nat) (hR : R.Nodup) (hS : S.Nodup)
    (hSR : ∀ i ∈ S, i ∈ R) :
    (R.map g).sum = (S.map g).sum +
      ((R.filter (fun i => !decide (i ∈ S))).map g).sum := by
  have hperm : List.Perm
      (R.filter (fun i => decide (i ∈ S)) ++ R.filter (fun i => !decide (i ∈ S))) R :=
    List.filter_append_perm _ R
  have hsum := (hperm.map g).sum_eq
  rw [List.map_append, List.sum_append] at hsum
  have hpermS : List.Perm (R.filter (fun i => decide (i ∈ S))) S := by
    refine (List.perm_ext_iff_of_nodup (hR.filter _) hS).mpr ?_
    intro i
    simp only [List.mem_filter, decide_eq_true_eq]
    exact ⟨fun h => h.2, fun h => ⟨hSR i h, h⟩⟩
  rw [← (hpermS.map g).sum_eq, ← hsum]

lemma sum_map_eq_zero (l : List Nat) (g : Nat → Nat) (h : ∀ i ∈ l, g i = 0) :
    (l.map g).sum = 0 := by
  apply List.sum_eq_zero
  intro x hx
  obtain ⟨i, hi, rfl⟩ := List.mem_map.mp hx
  exact h i hi

lemma sum_map_congr (l : List Nat) (g1 g2 : Nat → Nat) (h : ∀ i ∈ l, g1 i = g2 i) :
    (l.map g1).sum = (l.map g2).sum := by
  rw [List.map_congr_left h]

/-! ## Read-phase lemmas -/

lemma countA_eq_countP (a : Nat) (l : List Blk) :
    countA a l = l.countP (fun b => !b.dummy_flag && b.a == a) :=
  (l.countP_eq_length_filter _).symm

lemma countO_decomp (st : OState) (a : Nat) :
    countO st a = countA a st.stash +
      ((List.range st.tree.length).map (fun i => countA a (nodeBlocks st i))).sum := by
  unfold countO allBlocks
  rw [countA_eq_countP, List.countP_append, countP_flatMap, countA_eq_countP]
  congr 1
  apply sum_map_congr
  intro i _
  rw [countA_eq_countP]

lemma blkOK_decode (c : Cfg) (bks : List Blk) (hne : bks ≠ [])
    (hok : ∀ b ∈ bks, blkOKb c b = true) :
    decode_bucket (encode_bucket bks) = bks := by
  apply decode_encode bks hne
  intro b hb
  obtain ⟨h1, h2, h3, h4, _, _⟩ := blkOKb_spec c b (hok b hb)
  exact ⟨h4, h1, h2, h3⟩

lemma nodeBlocks_of_get? (st : OState) (i : Nat) (ct : Ct)
    (h : st.tree.get? i = some ct) : nodeBlocks st i = decode_bucket ct.pt := by
  unfold nodeBlocks
  have hD : st.tree.getD i (encryptB 0 0 []) = ct := by
    simp [List.getD_eq_getElem?_getD, ← List.get?_eq_getElem?, h]
  rw [hD]

lemma readBucket_ok (c : Cfg) (st : OState) (i : Nat) (bks : List Blk)
    (hnode : st.tree.get? i = some (encryptB i (st.nonces i) (encode_bucket bks)))
    (hne : bks ≠ []) (hok : ∀ b ∈ bks, blkOKb c b = true) :
    readBucket st.tree st.nonces i = .ok bks ∧ nodeBlocks st i = bks := by
  have hdec : decode_bucket (encode_bucket bks) = bks := blkOK_decode c bks hne hok
  constructor
  · have hd : decryptB i (st.nonces i) (encryptB i (st.nonces i) (encode_bucket bks)) =
        some (encode_bucket bks) := by
      unfold decryptB encryptB
      simp
    simp only [readBucket, hnode, hd, hdec]
  · rw [nodeBlocks_of_get? st i _ hnode]
    exact hdec

lemma readPhase_ok (tree : List Ct) (nonces : Nat → Nat) (idxs : List Nat)
    (f : Nat → List Blk) (h : ∀ i ∈ idxs, readBucket tree nonces i = .ok (f i)) :
    ∀ acc, readPhase tree nonces idxs acc = (none, acc ++ idxs.flatMap f) := by
  induction idxs with
  | nil => intro acc; simp [readPhase]
  | cons i rest ih =>
    intro acc
    have hi := h i (by simp)
    simp only [readPhase, hi]
    rw [ih (fun j hj => h j (by simp [hj])) (acc ++ f i)]
    simp [List.flatMap_cons]

/-! ## Initial state -/

lemma initState_tree_get? (c : Cfg) (pos0 nonce0 : Nat → Nat) (i : Nat)
    (hi : i < nbuckets c) :
    (initState c pos0 nonce0).tree.get? i =
      some (encryptB i (nonce0 i) (encode_bucket (List.replicate c.Z (dummyBlk c)))) := by
  unfold initState
  simp only [List.get?_eq_getElem?, List.getElem?_map, List.getElem?_range hi]
  rfl

lemma initState_WF (c : Cfg) (hC : CfgOK c) (pos0 nonce0 : Nat → Nat)
    (hpos : ∀ a, a < c.N → pos0 a < 2 ^ heightL c) :
    WF c (initState c pos0 nonce0) := by
  have hdum := dummyBlk_OK c hC
  obtain ⟨hZ, h2, hnb, hN, hsep⟩ := hC
  have hrepne : List.replicate c.Z (dummyBlk c) ≠ [] := by
    intro hemp
    have := congrArg List.length hemp
    simp at this
    omega
  have hrepok : ∀ b ∈ List.replicate c.Z (dummyBlk c), blkOKb c b = true := by
    intro b hb
    rw [List.eq_of_mem_replicate hb]
    exact hdum
  have hlen : (initState c pos0 nonce0).tree.length = nbuckets c := by
    simp [initState]
  refine ⟨hlen, hpos, ?_, ?_, ?_⟩
  · intro b hb
    simp [initState] at hb
  · intro i hi
    refine ⟨List.replicate c.Z (dummyBlk c), initState_tree_get? c pos0 nonce0 i hi, by simp, ?_⟩
    intro b hb
    refine ⟨hrepok b hb, ?_⟩
    intro hfl
    rw [List.eq_of_mem_replicate hb] at hfl
    simp [dummyBlk] at hfl
  · intro a ha
    rw [countO_decomp]
    have hstash : countA a (initState c pos0 nonce0).stash = 0 := by
      simp [initState, countA]
    rw [hstash]
    have hz : ((List.range (initState c pos0 nonce0).tree.length).map
        (fun i => countA a (nodeBlocks (initState c pos0 nonce0) i))).sum = 0 := by
      apply sum_map_eq_zero
      intro i hi
      rw [List.mem_range, hlen] at hi
      have hnode := initState_tree_get? c pos0 nonce0 i hi
      have := (readBucket_ok c (initState c pos0 nonce0) i _ hnode hrepne hrepok).2
      rw [this, countA_eq_countP]
      apply countP_replicate_zero
      simp [dummyBlk]
    rw [hz]
    omega

/-! ## Eviction lemmas -/

lemma selStep_cons (c : Cfg) (pos : Nat → Nat) (L target level : Nat) (b : Blk)
    (stash : List Blk) (k : Nat) :
    selStep c pos L target level (b :: stash) k =
      if b.dummy_flag then
        match selStep c pos L target level stash k with
        | .error e => .error e
        | .ok (s, r) => .ok (s, b :: r)
      else if b.a < c.N then
        if (get_path_leaf_to_root (pos b.a) L).getD level 0 = target ∧ k < c.Z then
          match selStep c pos L target level stash (k + 1) with
          | .error e => .error e
          | .ok (s, r) => .ok (b :: s, r)
        else
          match selStep c pos L target level stash k with
          | .error e => .error e
          | .ok (s, r) => .ok (s, b :: r)
      else .error .keyError := by
  rw [selStep.eq_def]

lemma selStep_ok (c : Cfg) (pos : Nat → Nat) (L target level : Nat) :
    ∀ (stash : List Blk) (k : Nat),
    (∀ b ∈ stash, b.dummy_flag = false → b.a < c.N) →
    ∃ selB rem, selStep c pos L target level stash k = .ok (selB, rem) ∧
      (∀ p : Blk → Bool, stash.countP p = selB.countP p + rem.countP p) ∧
      (∀ b ∈ selB, b ∈ stash ∧ b.dummy_flag = false ∧
        (get_path_leaf_to_root (pos b.a) L).getD level 0 = target) ∧
      (∀ b ∈ rem, b ∈ stash) ∧
      (k ≤ c.Z → k + selB.length ≤ c.Z) := by
  intro stash
  induction stash with
  | nil =>
    intro k _
    exact ⟨[], [], rfl, by simp, by simp, by simp, fun hk => by simpa using hk⟩
  | cons b stash ih =>
    intro k h
    by_cases hdum : b.dummy_flag = true
    · obtain ⟨selB, rem, heq, hcnt, hsel, hrem, hk⟩ :=
        ih k (fun bb hb hf => h bb (by simp [hb]) hf)
      refine ⟨selB, b :: rem, ?_, ?_, ?_, ?_, hk⟩
      · rw [selStep_cons, if_pos hdum, heq]
      · intro p
        rw [List.countP_cons, List.countP_cons, hcnt p]
        omega
      · intro bb hb
        obtain ⟨h1, h2, h3⟩ := hsel bb hb
        exact ⟨by simp [h1], h2, h3⟩
      · intro bb hb
        rcases List.mem_cons.mp hb with rfl | hm
        · simp
        · simp [hrem bb hm]
    · have hreal : b.dummy_flag = false := by
        cases hfl : b.dummy_flag
        · rfl
        · exact absurd hfl hdum
      have haN : b.a < c.N := h b (by simp) hreal
      by_cases helig : (get_path_leaf_to_root (pos b.a) L).getD level 0 = target ∧ k < c.Z
      · obtain ⟨selB, rem, heq, hcnt, hsel, hrem, hk⟩ :=
          ih (k + 1) (fun bb hb hf => h bb (by simp [hb]) hf)
        refine ⟨b :: selB, rem, ?_, ?_, ?_, ?_, ?_⟩
        · rw [selStep_cons, if_neg (by simp [hreal]), if_pos haN, if_pos helig, heq]
        · intro p
          rw [List.countP_cons, List.countP_cons, hcnt p]
          omega
        · intro bb hb
          rcases List.mem_cons.mp hb with rfl | hm
          · exact ⟨by simp, hreal, helig.1⟩
          · obtain ⟨h1, h2, h3⟩ := hsel bb hm
            exact ⟨by simp [h1], h2, h3⟩
        · intro bb hb
          simp [hrem bb hb]
        · intro hkZ
          have := hk (by omega)
          simp only [List.length_cons]
          omega
      · obtain ⟨selB, rem, heq, hcnt, hsel, hrem, hk⟩ :=
          ih k (fun bb hb hf => h bb (by simp [hb]) hf)
        refine ⟨selB, b :: rem, ?_, ?_, ?_, ?_, hk⟩
        · rw [selStep_cons, if_neg (by simp [hreal]), if_pos haN, if_neg helig, heq]
        · intro p
          rw [List.countP_cons, List.countP_cons, hcnt p]
          omega
        · intro bb hb
          obtain ⟨h1, h2, h3⟩ := hsel bb hb
          exact ⟨by simp [h1], h2, h3⟩
        · intro bb hb
          rcases List.mem_cons.mp hb with rfl | hm
          · simp
          · simp [hrem bb hm]

lemma evictLevels_cons (c : Cfg) (L : Nat) (freshN : Nat → Nat) (level node : Nat)
    (rest : List (Nat × Nat)) (st : OState) :
    evictLevels c L freshN ((level, node) :: rest) st =
      match selStep c st.pos L node level st.stash 0 with
      | .error e => .error (e, st)
      | .ok (selB, remaining) =>
        if node < st.tree.length then
          evictLevels c L freshN rest
            { stash := remaining
            , pos := st.pos
            , nonces := fun j => if j = node then freshN level else st.nonces j
            , tree := st.tree.set node (encryptB node (freshN level)
                (encode_bucket (selB ++ List.replicate (c.Z - selB.length) (dummyBlk c)))) }
        else .error (.indexError, st) := by
  rw [evictLevels.eq_def]

/-- Main eviction-loop lemma: under the invariant hypotheses the loop
succeeds, rewrites exactly the listed nodes with fresh nonces, keeps the
position map, moves only stash blocks into the written buckets (placed at
their position-map path), pads with dummies to exactly `Z`, and preserves
per-predicate real-block counts. -/
lemma evictLevels_ok (c : Cfg) (L : Nat) (freshN : Nat → Nat)
    (hZ : 1 ≤ c.Z) (hdum : blkOKb c (dummyBlk c) = true) :
    ∀ (ps : List (Nat × Nat)) (st : OState),
    (ps.map Prod.snd).Nodup →
    (∀ q ∈ ps, q.2 < st.tree.length) →
    (∀ b ∈ st.stash, blkOKb c b = true) →
    ∃ st1, evictLevels c L freshN ps st = .ok st1 ∧
      st1.pos = st.pos ∧
      st1.tree.length = st.tree.length ∧
      (∀ j, j ∉ ps.map Prod.snd →
        st1.tree.get? j = st.tree.get? j ∧ st1.nonces j = st.nonces j) ∧
      (∀ b ∈ st1.stash, b ∈ st.stash) ∧
      (∀ q ∈ ps, st1.nonces q.2 = freshN q.1 ∧
        st1.tree.get? q.2 =
          some (encryptB q.2 (freshN q.1) (encode_bucket (nodeBlocks st1 q.2))) ∧
        (nodeBlocks st1 q.2).length = c.Z ∧
        (∀ b ∈ nodeBlocks st1 q.2, blkOKb c b = true ∧
          (b.dummy_flag = false → b ∈ st.stash ∧
            (get_path_leaf_to_root (st.pos b.a) L).getD q.1 0 = q.2))) ∧
      (∀ p : Blk → Bool, (∀ bd : Blk, bd.dummy_flag = true → p bd = false) →
        st.stash.countP p = st1.stash.countP p +
          (ps.map (fun q => (nodeBlocks st1 q.2).countP p)).sum) := by
  intro ps
  induction ps with
  | nil =>
    intro st _ _ _
    exact ⟨st, rfl, rfl, rfl, fun j _ => ⟨rfl, rfl⟩, fun b hb => hb,
      fun q hq => absurd hq (by simp), fun p _ => by simp⟩
  | cons q0 rest ih =>
    obtain ⟨level, node⟩ := q0
    intro st hnd hlt hstash
    have hstashN : ∀ b ∈ st.stash, b.dummy_flag = false → b.a < c.N := by
      intro b hb hf
      exact (blkOKb_spec c b (hstash b hb)).2.2.2.2.2 hf
    obtain ⟨selB, rem, heq, hcnt, hsel, hrem, hk⟩ :=
      selStep_ok c st.pos L node level st.stash 0 hstashN
    have hselZ : selB.length ≤ c.Z := by
      have := hk (by omega)
      omega
    have hnodeLt : node < st.tree.length := hlt (level, node) (by simp)
    set padded := selB ++ List.replicate (c.Z - selB.length) (dummyBlk c) with hpadded
    have hpadlen : padded.length = c.Z := by
      simp [hpadded]
      omega
    have hpadne : padded ≠ [] := by
      intro hemp
      rw [hemp] at hpadlen
      simp at hpadlen
      omega
    have hpadOK : ∀ b ∈ padded, blkOKb c b = true := by
      intro b hb
      rcases List.mem_append.mp hb with hm | hm
      · exact hstash b (hsel b hm).1
      · rw [List.eq_of_mem_replicate hm]
        exact hdum
    set ct := encryptB node (freshN level) (encode_bucket padded) with hct
    set st' : OState :=
      { stash := rem
      , pos := st.pos
      , nonces := fun j => if j = node then freshN level else st.nonces j
      , tree := st.tree.set node ct } with hst'
    have htl' : st'.tree.length = st.tree.length := by
      simp [hst']
    rw [List.map_cons] at hnd
    have hnd2 := List.nodup_cons.mp hnd
    have hndtail : (rest.map Prod.snd).Nodup := hnd2.2
    have hnode_notin : node ∉ rest.map Prod.snd := hnd2.1
    obtain ⟨st1, heval, hpos1, htl1, hframe1, hstash1, hnodes1, hcnt1⟩ :=
      ih st' hndtail
        (fun q hq => by rw [htl']; exact hlt q (by simp [hq]))
        (fun b hb => hstash b (hrem b hb))
    have hrun : evictLevels c L freshN ((level, node) :: rest) st = .ok st1 := by
      rw [evictLevels_cons]
      simp only [heq, if_pos hnodeLt]
      exact heval
    have hget_node : st'.tree.get? node = some ct := by
      simp only [hst', List.get?_eq_getElem?]
      rw [List.getElem?_set_self (by exact hnodeLt)]
    have hst1_node_tree : st1.tree.get? node = some ct :=
      (hframe1 node hnode_notin).1.trans hget_node
    have hst1_node_nonce : st1.nonces node = freshN level := by
      rw [(hframe1 node hnode_notin).2]
      simp [hst']
    have hnodeBlocks1 : nodeBlocks st1 node = padded := by
      rw [nodeBlocks_of_get? st1 node ct hst1_node_tree, hct]
      exact blkOK_decode c padded hpadne hpadOK
    refine ⟨st1, hrun, ?_, ?_, ?_, ?_, ?_, ?_⟩
    · rw [hpos1]
    · rw [htl1, htl']
    · intro j hj
      have hjrest : j ∉ rest.map Prod.snd := by
        intro hm
        exact hj (by simp [hm])
      have hjnode : j ≠ node := by
        intro hm
        exact hj (by simp [hm])
      obtain ⟨ht, hn⟩ := hframe1 j hjrest
      constructor
      · rw [ht]
        simp only [hst', List.get?_eq_getElem?]
        rw [List.getElem?_set_ne (by omega)]
      · rw [hn]
        simp [hst', hjnode]
    · intro b hb
      exact hrem b (hstash1 b hb)
    · intro q hq
      rcases List.mem_cons.mp hq with rfl | hm
      · refine ⟨hst1_node_nonce, ?_, ?_, ?_⟩
        · rw [hnodeBlocks1, hst1_node_tree, hct]
        · rw [hnodeBlocks1, hpadlen]
        · intro b hb
          rw [hnodeBlocks1] at hb
          refine ⟨hpadOK b hb, ?_⟩
          intro hf
          rcases List.mem_append.mp hb with hmm | hmm
          · obtain ⟨h1, _, h3⟩ := hsel b hmm
            exact ⟨h1, h3⟩
          · rw [List.eq_of_mem_replicate hmm] at hf
            simp [dummyBlk] at hf
      · obtain ⟨hn1, hn2, hn3, hn4⟩ := hnodes1 q hm
        refine ⟨hn1, hn2, hn3, ?_⟩
        intro b hb
        obtain ⟨hbok, hbreal⟩ := hn4 b hb
        refine ⟨hbok, ?_⟩
        intro hf
        obtain ⟨hbs, hbp⟩ := hbreal hf
        refine ⟨hrem b hbs, ?_⟩
        have : st'.pos = st.pos := by simp [hst']
        rw [this] at hbp
        exact hbp
    · intro p hp
      have hpd : p (dummyBlk c) = false := hp (dummyBlk c) (by simp [dummyBlk])
      have hpadcnt : padded.countP p = selB.countP p := by
        rw [hpadded, List.countP_append, countP_replicate_zero p (dummyBlk c) _ hpd]
        omega
      have hmain := hcnt1 p hp
      rw [hcnt p, List.map_cons, List.sum_cons, hnodeBlocks1, hpadcnt]
      have : st'.stash = rem := by simp [hst']
      rw [this] at hmain
      omega

lemma find?_append_cons {α : Type} (p : α → Bool) (l1 : List α) (b : α) (l2 : List α)
    (h0 : l1.countP p = 0) (hb : p b = true) :
    (l1 ++ b :: l2).find? p = some b := by
  induction l1 with
  | nil => simp [List.find?_cons_of_pos _ hb]
  | cons x l1 ih =>
    cases hpx : p x
    · rw [countP_cons_false p x l1 hpx] at h0
      rw [List.cons_append, List.find?_cons_of_neg _ (by simp [hpx])]
      exact ih h0
    · rw [countP_cons_true p x l1 hpx] at h0
      omega

lemma mem_enum_fst_lt {α : Type} (l : List α) (x : Nat × α) (h : x ∈ l.enum) :
    x.1 < l.length :=
  (List.getElem?_eq_some_iff.mp (List.mem_enum_iff_getElem?.mp h)).1

lemma mem_enum_snd_getD (l : List Nat) (x : Nat × Nat) (h : x ∈ l.enum) :
    l.getD x.1 0 = x.2 := by
  obtain ⟨hlt, hget⟩ := List.getElem?_eq_some_iff.mp (List.mem_enum_iff_getElem?.mp h)
  rw [List.getD_eq_getElem l 0 hlt, hget]

lemma mem_exists_enum {α : Type} (l : List α) (i : α) (h : i ∈ l) :
    ∃ k, (k, i) ∈ l.enum := by
  obtain ⟨n, hn, hget⟩ := List.mem_iff_getElem.mp h
  refine ⟨n, List.mem_enum_iff_getElem?.mpr ?_⟩
  rw [List.getElem?_eq_getElem hn, hget]

/-- Every address-`a` match in a stash whose dummies all carry address
`N + 1` is a real block, so the code's `block.a == a` scan and the logical
real-block predicate agree. -/
lemma pred_eq_on_clean (c : Cfg) (a : Nat) (ha : a < c.N) (l : List Blk)
    (hOK : ∀ b ∈ l, blkOKb c b = true) :
    ∀ b ∈ l, (b.a == a) = (!b.dummy_flag && b.a == a) := by
  intro b hb
  cases hfl : b.dummy_flag
  · simp
  · have := (blkOKb_spec c b (hOK b hb)).2.2.2.2.1 hfl
    have hne : b.a ≠ a := by omega
    simp [hne]

/-- The logical predicate for a real block of address `a`. -/
def realA (a : Nat) : Blk → Bool := fun b => !b.dummy_flag && b.a == a

lemma countA_eq_realA (a : Nat) (l : List Blk) : countA a l = l.countP (realA a) :=
  countA_eq_countP a l

lemma countP_congr_pred {α : Type} (p q : α → Bool) (l : List α)
    (h : ∀ x ∈ l, p x = q x) : l.countP p = l.countP q := by
  induction l with
  | nil => rfl
  | cons b l ih =>
    rw [List.countP_cons, List.countP_cons, h b (by simp),
      ih (fun x hx => h x (by simp [hx]))]

lemma nodeBlocks_congr (st1 st : OState) (j : Nat)
    (h : st1.tree.get? j = st.tree.get? j) :
    nodeBlocks st1 j = nodeBlocks st j := by
  unfold nodeBlocks
  have he : st1.tree.getD j (encryptB 0 0 []) = st.tree.getD j (encryptB 0 0 []) := by
    simp only [List.getD_eq_getElem?_getD, ← List.get?_eq_getElem?, h]
  rw [he]

lemma mem_allBlocks_of_stash (st : OState) (b : Blk) (hb : b ∈ st.stash) :
    b ∈ allBlocks st := by
  unfold allBlocks
  exact List.mem_append.mpr (Or.inl hb)

lemma mem_allBlocks_of_node (st : OState) (i : Nat) (hi : i < st.tree.length)
    (b : Blk) (hb : b ∈ nodeBlocks st i) : b ∈ allBlocks st := by
  unfold allBlocks
  refine List.mem_append.mpr (Or.inr ?_)
  exact List.mem_flatMap.mpr ⟨i, List.mem_range.mpr hi, hb⟩

lemma countA_pos_mem (a : Nat) (l : List Blk) (h : countA a l ≠ 0) :
    ∃ b ∈ l, b.dummy_flag = false ∧ b.a = a := by
  rw [countA_eq_realA] at h
  have hpos : 0 < l.countP (realA a) := by omega
  obtain ⟨b, hb, hp⟩ := List.countP_pos_iff.mp hpos
  unfold realA at hp
  simp only [Bool.and_eq_true, Bool.not_eq_true', beq_iff_eq] at hp
  exact ⟨b, hb, hp.1, hp.2⟩

lemma countA_mem_pos (a : Nat) (l : List Blk) (b : Blk) (hb : b ∈ l)
    (hreal : b.dummy_flag = false) (haddr : b.a = a) : countA a l ≠ 0 := by
  rw [countA_eq_realA]
  intro h0
  have hpos : 0 < l.countP (realA a) :=
    List.countP_pos_iff.mpr ⟨b, hb, by simp [realA, hreal, haddr]⟩
  omega

/-- Real blocks of address `a2` appear only at nodes on the path of
`position_map[a2]`, so the count at any other node is zero. -/
lemma off_path_count_zero (c : Cfg) (st : OState) (a2 : Nat) (hZ : 1 ≤ c.Z)
    (hnd : ∀ i, i < nbuckets c → NodeWF c st i) (j : Nat) (hj : j < nbuckets c)
    (hoff : j ∉ get_path_leaf_to_root (st.pos a2) (heightL c)) :
    countA a2 (nodeBlocks st j) = 0 := by
  by_contra hne
  obtain ⟨b, hb, hreal, haddr⟩ := countA_pos_mem a2 _ hne
  obtain ⟨bks, hget, hlen, hprops⟩ := hnd j hj
  have hnbk : nodeBlocks st j = bks := by
    rw [nodeBlocks_of_get? st j _ hget]
    exact blkOK_decode c bks
      (by intro h; rw [h] at hlen; simp at hlen; omega)
      (fun bb hbb => (hprops bb hbb).1)
  rw [hnbk] at hb
  have := (hprops b hb).2 hreal
  rw [haddr] at this
  exact hoff this

/-- Total real-block count of address `a2` over the nodes off the write
path of leaf `x`. -/
def offWsum (c : Cfg) (st : OState) (x a2 : Nat) : Nat :=
  (((List.range (nbuckets c)).filter
      (fun i => !decide (i ∈ get_path_leaf_to_root x (heightL c)))).map
    (fun j => countA a2 (nodeBlocks st j))).sum

lemma countA_filter_real (a2 : Nat) (l : List Blk) :
    countA a2 (l.filter (fun b => !b.dummy_flag)) = countA a2 l := by
  rw [countA_eq_countP, countA_eq_countP, List.countP_filter]
  apply countP_congr_pred
  intro b _
  cases b.dummy_flag <;> simp

lemma realA_dummy_false (a2 : Nat) :
    ∀ bd : Blk, bd.dummy_flag = true → (fun b => !b.dummy_flag && b.a == a2) bd = false := by
  intro bd h
  simp [h]

/-- After the op step, the eviction loop and the final dummy filter restore
every structural piece of the invariant and relate the new global counts to
the post-op stash counts. -/
lemma evict_finish (c : Cfg) (hC : CfgOK c) (st : OState) (hW : WF c st)
    (a newx : Nat) (ha : a < c.N) (hx : newx < 2 ^ heightL c) (freshN : Nat → Nat)
    (stash2 : List Blk) (hOK2 : ∀ b ∈ stash2, blkOKb c b = true) :
    ∃ st1,
      evictLevels c (heightL c) freshN
        (get_path_leaf_to_root (st.pos a) (heightL c)).enum
        { stash := stash2, pos := fun b => if b = a then newx else st.pos b
        , nonces := st.nonces, tree := st.tree } = .ok st1 ∧
      st1.pos = (fun b => if b = a then newx else st.pos b) ∧
      st1.tree.length = nbuckets c ∧
      (∀ b ∈ st1.stash.filter (fun b => !b.dummy_flag),
        blkOKb c b = true ∧ b.dummy_flag = false) ∧
      (∀ i, i < nbuckets c →
        NodeWF c { st1 with stash := st1.stash.filter (fun b => !b.dummy_flag) } i) ∧
      (∀ a2, a2 < c.N →
        countO { st1 with stash := st1.stash.filter (fun b => !b.dummy_flag) } a2 =
          countA a2 stash2 + offWsum c st (st.pos a) a2) ∧
      (∀ b ∈ allBlocks { st1 with stash := st1.stash.filter (fun b => !b.dummy_flag) },
        b.dummy_flag = false → b.a = a → b ∈ stash2) := by
  obtain ⟨hZ, h2, hnbC, hN, hsepD⟩ := hC
  have hdum := dummyBlk_OK c ⟨hZ, h2, hnbC, hN, hsepD⟩
  obtain ⟨htl, hposm, hstW, hndW, huq⟩ := hW
  have hxlt : st.pos a < 2 ^ heightL c := hposm a ha
  have hWlt := writeIndices_lt_nb c (st.pos a) hnbC hxlt
  have hWnd := writeIndices_nodup (st.pos a) (heightL c)
  have hWlen := writeIndices_length (st.pos a) (heightL c) hxlt
  have hpos1r : ∀ a2, a2 < c.N →
      (fun b => if b = a then newx else st.pos b) a2 < 2 ^ heightL c := by
    intro a2 ha2
    by_cases h : a2 = a <;> simp [h]
    · exact hx
    · exact hposm a2 ha2
  obtain ⟨st1, heval, hpos1, htl1, hframe1, hstash1m, hnodes1, hcnt1⟩ :=
    evictLevels_ok c (heightL c) freshN hZ hdum
      (get_path_leaf_to_root (st.pos a) (heightL c)).enum
      { stash := stash2, pos := fun b => if b = a then newx else st.pos b
      , nonces := st.nonces, tree := st.tree }
      (by rw [List.enum_map_snd]; exact hWnd)
      (fun q hq => by
        have := List.snd_mem_of_mem_enum hq
        show q.2 < st.tree.length
        rw [htl]
        exact hWlt q.2 this)
      hOK2
  have htl1' : st1.tree.length = nbuckets c := by
    rw [htl1]
    exact htl
  -- off-path nodes keep their old content
  have hoff_frame : ∀ j, j ∉ get_path_leaf_to_root (st.pos a) (heightL c) →
      nodeBlocks st1 j = nodeBlocks st j ∧ st1.nonces j = st.nonces j ∧
      st1.tree.get? j = st.tree.get? j := by
    intro j hj
    have hjn : j ∉ (get_path_leaf_to_root (st.pos a) (heightL c)).enum.map Prod.snd := by
      rw [List.enum_map_snd]
      exact hj
    obtain ⟨ht, hn⟩ := hframe1 j hjn
    exact ⟨nodeBlocks_congr st1 _ j ht, hn, ht⟩
  refine ⟨st1, heval, hpos1, htl1', ?_, ?_, ?_, ?_⟩
  · intro b hb
    obtain ⟨hbm, hbf⟩ := List.mem_filter.mp hb
    exact ⟨hOK2 b (hstash1m b hbm), by simpa using hbf⟩
  · -- NodeWF for the final state
    intro i hi
    by_cases hiW : i ∈ get_path_leaf_to_root (st.pos a) (heightL c)
    · obtain ⟨level, hlv⟩ := mem_exists_enum _ i hiW
      obtain ⟨hn1, hn2, hn3, hn4⟩ := hnodes1 (level, i) hlv
      have hn1' : st1.nonces i = freshN level := hn1
      have hn2' : st1.tree.get? i =
          some (encryptB i (freshN level) (encode_bucket (nodeBlocks st1 i))) := hn2
      have hn3' : (nodeBlocks st1 i).length = c.Z := hn3
      refine ⟨nodeBlocks st1 i, ?_, hn3', ?_⟩
      · show st1.tree.get? i = _
        rw [hn2']
        show _ = some (encryptB i (st1.nonces i) (encode_bucket (nodeBlocks st1 i)))
        rw [hn1']
      · intro b hb
        obtain ⟨hbOK, hbreal⟩ := hn4 b hb
        refine ⟨hbOK, ?_⟩
        intro hf
        obtain ⟨hbs, hbp0⟩ := hbreal hf
        have hbp : (get_path_leaf_to_root
            ((fun bq => if bq = a then newx else st.pos bq) b.a) (heightL c)).getD level 0 =
            i := hbp0
        have hlevlt : level < (get_path_leaf_to_root (st.pos a) (heightL c)).length :=
          mem_enum_fst_lt _ _ hlv
        have hbaN : b.a < c.N := (blkOKb_spec c b hbOK).2.2.2.2.2 hf
        have hblen : (get_path_leaf_to_root
            ((fun bq => if bq = a then newx else st.pos bq) b.a) (heightL c)).length =
            heightL c + 1 :=
          writeIndices_length _ _ (hpos1r b.a hbaN)
        have : (get_path_leaf_to_root
            ((fun bq => if bq = a then newx else st.pos bq) b.a) (heightL c)).getD level 0 ∈
            get_path_leaf_to_root
              ((fun bq => if bq = a then newx else st.pos bq) b.a) (heightL c) := by
          apply getD_mem
          rw [hblen]
          rw [hWlen] at hlevlt
          omega
        rw [hbp] at this
        show i ∈ get_path_leaf_to_root (st1.pos b.a) (heightL c)
        rw [hpos1]
        exact this
    · obtain ⟨hnb_eq, hnn, hnt⟩ := hoff_frame i hiW
      obtain ⟨bks, hget, hlen, hprops⟩ := hndW i hi
      refine ⟨bks, ?_, hlen, ?_⟩
      · show st1.tree.get? i = _
        rw [hnt, hget]
        show _ = some (encryptB i (st1.nonces i) (encode_bucket bks))
        rw [hnn]
      · intro b hb
        obtain ⟨hbOK, hbpl⟩ := hprops b hb
        refine ⟨hbOK, ?_⟩
        intro hf
        have hold := hbpl hf
        show i ∈ get_path_leaf_to_root (st1.pos b.a) (heightL c)
        rw [hpos1]
        by_cases hba : b.a = a
        · rw [hba] at hold
          exact absurd hold hiW
        · simpa [hba] using hold
  · -- count formula
    intro a2 ha2
    have hloop := hcnt1 (fun b => !b.dummy_flag && b.a == a2) (realA_dummy_false a2)
    have hsum_enum : (((get_path_leaf_to_root (st.pos a) (heightL c)).enum.map
        (fun q => (nodeBlocks st1 q.2).countP (fun b => !b.dummy_flag && b.a == a2))).sum) =
        (((get_path_leaf_to_root (st.pos a) (heightL c)).map
          (fun j => countA a2 (nodeBlocks st1 j))).sum) := by
      have hmm : (get_path_leaf_to_root (st.pos a) (heightL c)).enum.map
          (fun q => (nodeBlocks st1 q.2).countP (fun b => !b.dummy_flag && b.a == a2)) =
          ((get_path_leaf_to_root (st.pos a) (heightL c)).enum.map Prod.snd).map
            (fun j => countA a2 (nodeBlocks st1 j)) := by
        rw [List.map_map]
        apply List.map_congr_left
        intro q _
        simp [Function.comp, countA_eq_countP]
      rw [hmm, List.enum_map_snd]
    rw [countO_decomp]
    show countA a2 (st1.stash.filter (fun b => !b.dummy_flag)) +
        ((List.range st1.tree.length).map
          (fun i => countA a2 (nodeBlocks st1 i))).sum = _
    rw [countA_filter_real, htl1']
    rw [sum_map_split (List.range (nbuckets c))
      (get_path_leaf_to_root (st.pos a) (heightL c))
      (fun j => countA a2 (nodeBlocks st1 j)) (List.nodup_range _) hWnd
      (fun i hi => List.mem_range.mpr (hWlt i hi))]
    have hoffsum : (((List.range (nbuckets c)).filter
        (fun i => !decide (i ∈ get_path_leaf_to_root (st.pos a) (heightL c)))).map
        (fun j => countA a2 (nodeBlocks st1 j))).sum = offWsum c st (st.pos a) a2 := by
      unfold offWsum
      apply sum_map_congr
      intro j hj
      obtain ⟨_, hjn⟩ := List.mem_filter.mp hj
      rw [(hoff_frame j (by simpa using hjn)).1]
    rw [hoffsum]
    have hstashcnt : countA a2 stash2 = countA a2 st1.stash +
        (((get_path_leaf_to_root (st.pos a) (heightL c)).map
          (fun j => countA a2 (nodeBlocks st1 j))).sum) := by
      rw [countA_eq_countP, countA_eq_countP]
      rw [← hsum_enum]
      exact hloop
    rw [countA_eq_countP, countA_eq_countP] at hstashcnt
    rw [countA_eq_countP, countA_eq_countP]
    omega
  · -- real blocks of address a in the final state come from stash2
    intro b hb hf hba
    unfold allBlocks at hb
    rcases List.mem_append.mp hb with hm | hm
    · obtain ⟨hbm, _⟩ := List.mem_filter.mp hm
      exact hstash1m b hbm
    · obtain ⟨j, hjr, hbj⟩ := List.mem_flatMap.mp hm
      rw [List.mem_range] at hjr
      show b ∈ stash2
      by_cases hjW : j ∈ get_path_leaf_to_root (st.pos a) (heightL c)
      · obtain ⟨level, hlv⟩ := mem_exists_enum _ j hjW
        obtain ⟨_, _, _, hn4⟩ := hnodes1 (level, j) hlv
        have hbj' : b ∈ nodeBlocks st1 j := hbj
        exact ((hn4 b hbj').2 hf).1
      · have := (hoff_frame j hjW).1
        have hbj2 : b ∈ nodeBlocks st j := by
          rw [← this]
          exact hbj
        have hjz := off_path_count_zero c st a hZ hndW j (by rw [← htl1']; exact hjr) hjW
        exact absurd hjz (by
          apply countA_mem_pos a _ b hbj2 hf hba)

/-- Wrapper around `evict_finish` that assembles the full invariant for the
state returned by one Access, given a bound on the post-op counts. -/
lemma evict_wf (c : Cfg) (hC : CfgOK c) (st : OState) (hW : WF c st)
    (a newx : Nat) (ha : a < c.N) (hx : newx < 2 ^ heightL c) (freshN : Nat → Nat)
    (stash2 : List Blk) (hOK2 : ∀ b ∈ stash2, blkOKb c b = true)
    (hbound : ∀ a2, a2 < c.N → countA a2 stash2 + offWsum c st (st.pos a) a2 ≤ 1) :
    ∃ st1,
      evictLevels c (heightL c) freshN
        (get_path_leaf_to_root (st.pos a) (heightL c)).enum
        { stash := stash2, pos := fun b => if b = a then newx else st.pos b
        , nonces := st.nonces, tree := st.tree } = .ok st1 ∧
      WF c { st1 with stash := st1.stash.filter (fun b => !b.dummy_flag) } ∧
      st1.pos = (fun b => if b = a then newx else st.pos b) ∧
      (∀ a2, a2 < c.N →
        countO { st1 with stash := st1.stash.filter (fun b => !b.dummy_flag) } a2 =
          countA a2 stash2 + offWsum c st (st.pos a) a2) ∧
      (∀ b ∈ allBlocks { st1 with stash := st1.stash.filter (fun b => !b.dummy_flag) },
        b.dummy_flag = false → b.a = a → b ∈ stash2) := by
  obtain ⟨st1, heval, hpos1, htl1, hstashF, hnodeF, hcntF, hmemF⟩ :=
    evict_finish c hC st hW a newx ha hx freshN stash2 hOK2
  refine ⟨st1, heval, ?_, hpos1, hcntF, hmemF⟩
  obtain ⟨hZ, h2, hnbC, hN, hsepD⟩ := hC
  obtain ⟨htl, hposm, hstW, hndW, huq⟩ := hW
  refine ⟨htl1, ?_, hstashF, hnodeF, ?_⟩
  · intro a2 ha2
    show st1.pos a2 < 2 ^ heightL c
    rw [hpos1]
    by_cases hq : a2 = a
    · simp [hq, hx]
    · simp only [hq, if_false]
      exact hposm a2 ha2
  · intro a2 ha2
    rw [hcntF a2 ha2]
    exact hbound a2 ha2

lemma Access_master_core (c : Cfg) (hC : CfgOK c) (st : OState) (hW : WF c st)
    (op : Op) (a : Nat) (data_ : List Nat) (newx : Nat) (freshN : Nat → Nat)
    (ha : a < c.N) (hx : newx < 2 ^ heightL c)
    (hd : op = Op.write → data_.length = 4 ∧
      sepFree (serializeBlk { a := a, x := newx, data := data_, dummy_flag := false }) = true)
    (hphase : readPhase st.tree st.nonces (readIndices c (st.pos a)) [] =
      (none, (readIndices c (st.pos a)).flatMap (fun i => nodeBlocks st i)))
    (hstash1OK : ∀ b ∈ st.stash ++ (readIndices c (st.pos a)).flatMap
      (fun i => nodeBlocks st i), blkOKb c b = true)
    (hstash1mem : ∀ b ∈ st.stash ++ (readIndices c (st.pos a)).flatMap
      (fun i => nodeBlocks st i), b ∈ allBlocks st)
    (hcntP_addr : (st.stash ++ (readIndices c (st.pos a)).flatMap
      (fun i => nodeBlocks st i)).countP (fun b => b.a == a) =
      countA a (st.stash ++ (readIndices c (st.pos a)).flatMap (fun i => nodeBlocks st i)))
    (hcnt_stash1_a : countA a (st.stash ++ (readIndices c (st.pos a)).flatMap
      (fun i => nodeBlocks st i)) = countO st a)
    (hO1 : ∀ a2, a2 < c.N → countO st a2 =
      countA a2 (st.stash ++ (readIndices c (st.pos a)).flatMap (fun i => nodeBlocks st i)) +
        offWsum c st (st.pos a) a2)
    (hoffa : offWsum c st (st.pos a) a = 0)
    (hdata : ((st.stash ++ (readIndices c (st.pos a)).flatMap
      (fun i => nodeBlocks st i)).find? (fun b => b.a == a)).map (fun b => b.data) =
      lookupO st a)
    (huqa : countO st a ≤ 1) :
    ∃ st1, Access c op a data_ newx freshN st = .ok (lookupO st a) st1 ∧ WF c st1 ∧
      st1.pos = (fun b => if b = a then newx else st.pos b) ∧
      (op = Op.write → lookupO st1 a = some data_) := by
  have huqAll : ∀ a2, a2 < c.N → countO st a2 ≤ 1 := hW.2.2.2.2
  have hcnt01 : countA a (st.stash ++ (readIndices c (st.pos a)).flatMap
      (fun i => nodeBlocks st i)) = 0 ∨
      countA a (st.stash ++ (readIndices c (st.pos a)).flatMap
        (fun i => nodeBlocks st i)) = 1 := by
    have := hcnt_stash1_a
    omega
  cases op with
  | read =>
    obtain ⟨st1, heval, hWF, hpos1, hcntF, hmemF⟩ :=
      evict_wf c hC st hW a newx ha hx freshN
        (st.stash ++ (readIndices c (st.pos a)).flatMap (fun i => nodeBlocks st i))
        hstash1OK
        (by
          intro a2 ha2
          rw [← hO1 a2 ha2]
          exact huqAll a2 ha2)
    rcases hcnt01 with h0 | h1
    · have hfi : (st.stash ++ (readIndices c (st.pos a)).flatMap
          (fun i => nodeBlocks st i)).findIdx? (fun b => b.a == a) = none :=
        findIdx?_eq_none_of_countP _ _ (by rw [hcntP_addr]; exact h0)
      refine ⟨_, ?_, hWF, hpos1, fun h => Op.noConfusion h⟩
      simp only [Access, if_pos ha, hphase, hfi]
      rw [heval]
      rw [hdata]
    · have hs1 : (st.stash ++ (readIndices c (st.pos a)).flatMap
          (fun i => nodeBlocks st i)).countP (fun b => b.a == a) = 1 := by
        rw [hcntP_addr]; exact h1
      obtain ⟨l1, theB, l2, hdec, hpB, hl1, hl2⟩ := countP_one_decomp _ _ hs1
      have hfi : (st.stash ++ (readIndices c (st.pos a)).flatMap
          (fun i => nodeBlocks st i)).findIdx? (fun b => b.a == a) = some l1.length := by
        rw [hdec]
        exact findIdx?_append_cons _ l1 theB l2 hl1 hpB
      refine ⟨_, ?_, hWF, hpos1, fun h => Op.noConfusion h⟩
      simp only [Access, if_pos ha, hphase, hfi]
      rw [heval]
      rw [hdata]
  | write =>
    obtain ⟨hd4, hdsep⟩ := hd rfl
    have hZ : 1 ≤ c.Z := hC.1
    have h2 : 2 ≤ nbuckets c := hC.2.1
    have hN : c.N + 2 ≤ 2 ^ 32 := hC.2.2.2.1
    have hpow32 : 2 ^ heightL c < 2 ^ 32 := by
      have hp1 := heightL_pow_lt c h2
      have hp3 : nbuckets c ≤ c.N := Nat.div_le_self _ _
      omega
    have hfreshOK : blkOKb c { a := a, x := newx, data := data_, dummy_flag := false } = true := by
      simp [blkOKb, hd4, hdsep]
      omega
    have hfreshReal : ((fun b => !b.dummy_flag && b.a == a)
        ({ a := a, x := newx, data := data_, dummy_flag := false } : Blk)) = true := by
      simp
    rcases hcnt01 with h0 | h1
    · -- address not present: the fresh block is appended
      have hfi : (st.stash ++ (readIndices c (st.pos a)).flatMap
          (fun i => nodeBlocks st i)).findIdx? (fun b => b.a == a) = none :=
        findIdx?_eq_none_of_countP _ _ (by rw [hcntP_addr]; exact h0)
      have hOK2 : ∀ b ∈ (st.stash ++ (readIndices c (st.pos a)).flatMap
          (fun i => nodeBlocks st i)) ++
          [{ a := a, x := newx, data := data_, dummy_flag := false }], blkOKb c b = true := by
        intro b hb
        rcases List.mem_append.mp hb with hm | hm
        · exact hstash1OK b hm
        · rw [List.mem_singleton.mp hm]
          exact hfreshOK
      have hcA : countA a ((st.stash ++ (readIndices c (st.pos a)).flatMap
          (fun i => nodeBlocks st i)) ++
          [{ a := a, x := newx, data := data_, dummy_flag := false }]) = 1 := by
        rw [countA_eq_countP, List.countP_append, ← countA_eq_countP, h0]
        simp
      have hc2 : ∀ a2, a2 ≠ a → countA a2 ((st.stash ++ (readIndices c (st.pos a)).flatMap
          (fun i => nodeBlocks st i)) ++
          [{ a := a, x := newx, data := data_, dummy_flag := false }]) =
          countA a2 (st.stash ++ (readIndices c (st.pos a)).flatMap
            (fun i => nodeBlocks st i)) := by
        intro a2 hne
        rw [countA_eq_countP, List.countP_append, ← countA_eq_countP]
        have hane : a ≠ a2 := fun h => hne h.symm
        simp [hane]
      obtain ⟨st1, heval, hWF, hpos1, hcntF, hmemF⟩ :=
        evict_wf c hC st hW a newx ha hx freshN
          ((st.stash ++ (readIndices c (st.pos a)).flatMap (fun i => nodeBlocks st i)) ++
            [{ a := a, x := newx, data := data_, dummy_flag := false }])
          hOK2
          (by
            intro a2 ha2
            by_cases hq : a2 = a
            · subst hq
              rw [hcA, hoffa]
            · rw [hc2 a2 hq, ← hO1 a2 ha2]
              exact huqAll a2 ha2)
      refine ⟨_, ?_, hWF, hpos1, ?_⟩
      · simp only [Access, if_pos ha, hphase, hfi]
        rw [heval]
        rw [hdata]
      · intro _
        have hcntO : countO { st1 with stash := st1.stash.filter (fun b => !b.dummy_flag) } a =
            1 := by
          rw [hcntF a ha, hcA, hoffa]
        have hfreshmem : ({ a := a, x := newx, data := data_, dummy_flag := false } : Blk) ∈
            (st.stash ++ (readIndices c (st.pos a)).flatMap (fun i => nodeBlocks st i)) ++
            [{ a := a, x := newx, data := data_, dummy_flag := false }] := by
          simp
        have hcntP2 : ((st.stash ++ (readIndices c (st.pos a)).flatMap
            (fun i => nodeBlocks st i)) ++
            [({ a := a, x := newx, data := data_, dummy_flag := false } : Blk)]).countP
            (fun b => !b.dummy_flag && b.a == a) = 1 := by
          rw [← countA_eq_countP]
          exact hcA
        have huniqF : ∀ b2 ∈ allBlocks { st1 with
            stash := st1.stash.filter (fun b => !b.dummy_flag) },
            ((fun b => !b.dummy_flag && b.a == a) b2) = true →
            b2 = { a := a, x := newx, data := data_, dummy_flag := false } := by
          intro b2 hb2 hp2
          have hsplit : b2.dummy_flag = false ∧ b2.a = a := by
            simpa using hp2
          have hmem2 := hmemF b2 hb2 hsplit.1 hsplit.2
          exact countP_one_unique _ _ hcntP2 hmem2 hfreshmem hp2 hfreshReal
        have hex : 0 < (allBlocks { st1 with
            stash := st1.stash.filter (fun b => !b.dummy_flag) }).countP
            (fun b => !b.dummy_flag && b.a == a) := by
          have : (allBlocks { st1 with
              stash := st1.stash.filter (fun b => !b.dummy_flag) }).countP
              (fun b => !b.dummy_flag && b.a == a) =
              countO { st1 with stash := st1.stash.filter (fun b => !b.dummy_flag) } a := by
            rw [← countA_eq_countP]
            rfl
          rw [this, hcntO]
          omega
        obtain ⟨b2, hb2, hp2⟩ := List.countP_pos_iff.mp hex
        have hb2eq := huniqF b2 hb2 hp2
        unfold lookupO
        rw [find?_eq_of_unique (fun b => !b.dummy_flag && b.a == a) _
          ({ a := a, x := newx, data := data_, dummy_flag := false } : Blk)
          (hb2eq ▸ hb2) hfreshReal huniqF]
        rfl
    · -- address present: the stored block is overwritten in place
      have hs1 : (st.stash ++ (readIndices c (st.pos a)).flatMap
          (fun i => nodeBlocks st i)).countP (fun b => b.a == a) = 1 := by
        rw [hcntP_addr]; exact h1
      obtain ⟨l1, theB, l2, hdec, hpB, hl1, hl2⟩ := countP_one_decomp _ _ hs1
      have theBa : theB.a = a := by simpa using hpB
      have hfi : (st.stash ++ (readIndices c (st.pos a)).flatMap
          (fun i => nodeBlocks st i)).findIdx? (fun b => b.a == a) = some l1.length := by
        rw [hdec]
        exact findIdx?_append_cons _ l1 theB l2 hl1 hpB
      have hset : (st.stash ++ (readIndices c (st.pos a)).flatMap
          (fun i => nodeBlocks st i)).set l1.length
          { a := a, x := newx, data := data_, dummy_flag := false } =
          l1 ++ { a := a, x := newx, data := data_, dummy_flag := false } :: l2 := by
        rw [hdec]
        exact set_append_cons l1 theB _ l2
      have hl1A : l1.countP (fun b => !b.dummy_flag && b.a == a) = 0 := by
        have := List.countP_mono_left
          (p := fun b => !b.dummy_flag && b.a == a) (q := fun b => b.a == a)
          (l := l1) (fun x _ hx => by
            simp only [Bool.and_eq_true] at hx
            exact hx.2)
        omega
      have hl2A : l2.countP (fun b => !b.dummy_flag && b.a == a) = 0 := by
        have := List.countP_mono_left
          (p := fun b => !b.dummy_flag && b.a == a) (q := fun b => b.a == a)
          (l := l2) (fun x _ hx => by
            simp only [Bool.and_eq_true] at hx
            exact hx.2)
        omega
      have hOK2 : ∀ b ∈ l1 ++ { a := a, x := newx, data := data_, dummy_flag := false } :: l2,
          blkOKb c b = true := by
        intro b hb
        rcases List.mem_append.mp hb with hm | hm
        · exact hstash1OK b (by rw [hdec]; exact List.mem_append.mpr (Or.inl hm))
        · rcases List.mem_cons.mp hm with rfl | hm2
          · exact hfreshOK
          · exact hstash1OK b (by rw [hdec]; simp [hm2])
      have hcA : countA a (l1 ++ { a := a, x := newx, data := data_, dummy_flag := false } :: l2) = 1 := by
        rw [countA_eq_countP, List.countP_append, List.countP_cons, hl1A, hl2A]
        simp
      have hc2 : ∀ a2, a2 ≠ a →
          countA a2 (l1 ++ { a := a, x := newx, data := data_, dummy_flag := false } :: l2) =
          countA a2 (st.stash ++ (readIndices c (st.pos a)).flatMap
            (fun i => nodeBlocks st i)) := by
        intro a2 hne
        have hane : a ≠ a2 := fun h => hne h.symm
        rw [countA_eq_countP, countA_eq_countP, hdec, List.countP_append, List.countP_append,
          List.countP_cons, List.countP_cons]
        simp [theBa, hane]
      obtain ⟨st1, heval, hWF, hpos1, hcntF, hmemF⟩ :=
        evict_wf c hC st hW a newx ha hx freshN
          (l1 ++ { a := a, x := newx, data := data_, dummy_flag := false } :: l2)
          hOK2
          (by
            intro a2 ha2
            by_cases hq : a2 = a
            · subst hq
              rw [hcA, hoffa]
            · rw [hc2 a2 hq, ← hO1 a2 ha2]
              exact huqAll a2 ha2)
      refine ⟨_, ?_, hWF, hpos1, ?_⟩
      · simp only [Access, if_pos ha, hphase, hfi]
        rw [hset]
        rw [heval]
        rw [hdata]
      · intro _
        have hcntO : countO { st1 with stash := st1.stash.filter (fun b => !b.dummy_flag) } a =
            1 := by
          rw [hcntF a ha, hcA, hoffa]
        have hfreshmem : ({ a := a, x := newx, data := data_, dummy_flag := false } : Blk) ∈
            l1 ++ { a := a, x := newx, data := data_, dummy_flag := false } :: l2 := by
          simp
        have hcntP2 : (l1 ++ ({ a := a, x := newx, data := data_, dummy_flag := false } : Blk) :: l2).countP
            (fun b => !b.dummy_flag && b.a == a) = 1 := by
          rw [← countA_eq_countP]
          exact hcA
        have huniqF : ∀ b2 ∈ allBlocks { st1 with
            stash := st1.stash.filter (fun b => !b.dummy_flag) },
            ((fun b => !b.dummy_flag && b.a == a) b2) = true →
            b2 = { a := a, x := newx, data := data_, dummy_flag := false } := by
          intro b2 hb2 hp2
          have hsplit : b2.dummy_flag = false ∧ b2.a = a := by
            simpa using hp2
          have hmem2 := hmemF b2 hb2 hsplit.1 hsplit.2
          exact countP_one_unique _ _ hcntP2 hmem2 hfreshmem hp2 hfreshReal
        have hex : 0 < (allBlocks { st1 with
            stash := st1.stash.filter (fun b => !b.dummy_flag) }).countP
            (fun b => !b.dummy_flag && b.a == a) := by
          have heq2 : (allBlocks { st1 with
              stash := st1.stash.filter (fun b => !b.dummy_flag) }).countP
              (fun b => !b.dummy_flag && b.a == a) =
              countO { st1 with stash := st1.stash.filter (fun b => !b.dummy_flag) } a := by
            rw [← countA_eq_countP]
            rfl
          rw [heq2, hcntO]
          omega
        obtain ⟨b2, hb2, hp2⟩ := List.countP_pos_iff.mp hex
        have hb2eq := huniqF b2 hb2 hp2
        unfold lookupO
        rw [find?_eq_of_unique (fun b => !b.dummy_flag && b.a == a) _
          ({ a := a, x := newx, data := data_, dummy_flag := false } : Blk)
          (hb2eq ▸ hb2) hfreshReal huniqF]
        rfl
  | delete =>
    rcases hcnt01 with h0 | h1
    · -- not found: the code erases the last stash element
      have hfi : (st.stash ++ (readIndices c (st.pos a)).flatMap
          (fun i => nodeBlocks st i)).findIdx? (fun b => b.a == a) = none :=
        findIdx?_eq_none_of_countP _ _ (by rw [hcntP_addr]; exact h0)
      have hsub : ((st.stash ++ (readIndices c (st.pos a)).flatMap
          (fun i => nodeBlocks st i)).eraseIdx
          ((st.stash ++ (readIndices c (st.pos a)).flatMap
            (fun i => nodeBlocks st i)).length - 1)).Sublist
          (st.stash ++ (readIndices c (st.pos a)).flatMap (fun i => nodeBlocks st i)) :=
        List.eraseIdx_sublist _ _
      have hOK2 : ∀ b ∈ (st.stash ++ (readIndices c (st.pos a)).flatMap
          (fun i => nodeBlocks st i)).eraseIdx
          ((st.stash ++ (readIndices c (st.pos a)).flatMap
            (fun i => nodeBlocks st i)).length - 1), blkOKb c b = true := by
        intro b hb
        exact hstash1OK b (hsub.subset hb)
      obtain ⟨st1, heval, hWF, hpos1, hcntF, hmemF⟩ :=
        evict_wf c hC st hW a newx ha hx freshN _ hOK2
          (by
            intro a2 ha2
            have hle : countA a2 ((st.stash ++ (readIndices c (st.pos a)).flatMap
                (fun i => nodeBlocks st i)).eraseIdx
                ((st.stash ++ (readIndices c (st.pos a)).flatMap
                  (fun i => nodeBlocks st i)).length - 1)) ≤
                countA a2 (st.stash ++ (readIndices c (st.pos a)).flatMap
                  (fun i => nodeBlocks st i)) := by
              rw [countA_eq_countP, countA_eq_countP]
              exact hsub.countP_le _
            have := hO1 a2 ha2
            have := huqAll a2 ha2
            omega)
      refine ⟨_, ?_, hWF, hpos1, fun h => Op.noConfusion h⟩
      simp only [Access, if_pos ha, hphase, hfi]
      rw [heval]
      rw [hdata]
    · -- found: the block is removed
      have hs1 : (st.stash ++ (readIndices c (st.pos a)).flatMap
          (fun i => nodeBlocks st i)).countP (fun b => b.a == a) = 1 := by
        rw [hcntP_addr]; exact h1
      obtain ⟨l1, theB, l2, hdec, hpB, hl1, hl2⟩ := countP_one_decomp _ _ hs1
      have theBa : theB.a = a := by simpa using hpB
      have hfi : (st.stash ++ (readIndices c (st.pos a)).flatMap
          (fun i => nodeBlocks st i)).findIdx? (fun b => b.a == a) = some l1.length := by
        rw [hdec]
        exact findIdx?_append_cons _ l1 theB l2 hl1 hpB
      have hers : (st.stash ++ (readIndices c (st.pos a)).flatMap
          (fun i => nodeBlocks st i)).eraseIdx l1.length = l1 ++ l2 := by
        rw [hdec]
        exact eraseIdx_append_cons l1 theB l2
      have hOK2 : ∀ b ∈ l1 ++ l2, blkOKb c b = true := by
        intro b hb
        rcases List.mem_append.mp hb with hm | hm
        · exact hstash1OK b (by rw [hdec]; exact List.mem_append.mpr (Or.inl hm))
        · exact hstash1OK b (by rw [hdec]; simp [hm])
      obtain ⟨st1, heval, hWF, hpos1, hcntF, hmemF⟩ :=
        evict_wf c hC st hW a newx ha hx freshN (l1 ++ l2) hOK2
          (by
            intro a2 ha2
            have hle : countA a2 (l1 ++ l2) ≤ countA a2 (st.stash ++
                (readIndices c (st.pos a)).flatMap (fun i => nodeBlocks st i)) := by
              rw [countA_eq_countP, countA_eq_countP, hdec, List.countP_append,
                List.countP_append, List.countP_cons]
              omega
            have := hO1 a2 ha2
            have := huqAll a2 ha2
            omega)
      refine ⟨_, ?_, hWF, hpos1, fun h => Op.noConfusion h⟩
      simp only [Access, if_pos ha, hphase, hfi]
      rw [hers]
      rw [heval]
      rw [hdata]

/-- Master functional-correctness lemma for one clean Access from a
well-formed state: the call succeeds, returns the payload currently stored
for `a`, remaps exactly `position_map[a]` to the sampled leaf, re-establishes
the invariant, and a write installs `data_` as the payload of `a`. -/
theorem Access_master (c : Cfg) (hC : CfgOK c) (st : OState) (hW : WF c st)
    (op : Op) (a : Nat) (data_ : List Nat) (newx : Nat) (freshN : Nat → Nat)
    (ha : a < c.N) (hx : newx < 2 ^ heightL c)
    (hd : op = Op.write → data_.length = 4 ∧
      sepFree (serializeBlk { a := a, x := newx, data := data_, dummy_flag := false }) = true) :
    ∃ st1, Access c op a data_ newx freshN st = .ok (lookupO st a) st1 ∧ WF c st1 ∧
      st1.pos = (fun b => if b = a then newx else st.pos b) ∧
      (op = Op.write → lookupO st1 a = some data_) := by
  have hCkeep := hC
  have hWkeep := hW
  obtain ⟨hZ, h2, hnbC, hN, hsepD⟩ := hC
  obtain ⟨htl, hposm, hstW, hndW, huq⟩ := hW
  have hxlt : st.pos a < 2 ^ heightL c := hposm a ha
  have hRlt := readIndices_lt_nb c (st.pos a) h2 hnbC hxlt
  have hWlt := writeIndices_lt_nb c (st.pos a) hnbC hxlt
  have hWsubR := writeIndices_subset_read c (st.pos a) hxlt
  have hRnd := readIndices_nodup c (st.pos a) hxlt
  have hWnd := writeIndices_nodup (st.pos a) (heightL c)
  have hpow32 : 2 ^ heightL c < 2 ^ 32 := by
    have h1 := heightL_pow_lt c h2
    have h3 : nbuckets c ≤ c.N := Nat.div_le_self _ _
    omega
  have hnode : ∀ i, i < nbuckets c →
      (nodeBlocks st i).length = c.Z ∧
      (∀ b ∈ nodeBlocks st i, blkOKb c b = true ∧
        (b.dummy_flag = false →
          i ∈ get_path_leaf_to_root (st.pos b.a) (heightL c))) ∧
      readBucket st.tree st.nonces i = .ok (nodeBlocks st i) := by
    intro i hi
    obtain ⟨bks, hget, hlen, hprops⟩ := hndW i hi
    have hne : bks ≠ [] := by intro hh; rw [hh] at hlen; simp at hlen; omega
    have hok : ∀ b ∈ bks, blkOKb c b = true := fun b hb => (hprops b hb).1
    obtain ⟨hrb, hnbq⟩ := readBucket_ok c st i bks hget hne hok
    rw [← hnbq] at hlen hprops hrb
    exact ⟨hlen, hprops, hrb⟩
  have hreads : ∀ i ∈ readIndices c (st.pos a),
      readBucket st.tree st.nonces i = .ok (nodeBlocks st i) :=
    fun i hi => (hnode i (hRlt i hi)).2.2
  have hphase := readPhase_ok st.tree st.nonces _ (fun i => nodeBlocks st i) hreads []
  rw [List.nil_append] at hphase
  -- sums over the read indices collapse to sums over the write path
  have hsumRW : ∀ a2, a2 < c.N →
      (((readIndices c (st.pos a)).map (fun j => countA a2 (nodeBlocks st j))).sum =
        (((get_path_leaf_to_root (st.pos a) (heightL c)).map
          (fun j => countA a2 (nodeBlocks st j))).sum)) := by
    intro a2 ha2
    have hsplit := sum_map_split (readIndices c (st.pos a))
      (get_path_leaf_to_root (st.pos a) (heightL c))
      (fun j => countA a2 (nodeBlocks st j)) hRnd hWnd hWsubR
    have hzero : (((readIndices c (st.pos a)).filter
        (fun i => !decide (i ∈ get_path_leaf_to_root (st.pos a) (heightL c)))).map
        (fun j => countA a2 (nodeBlocks st j))).sum = 0 := by
      apply sum_map_eq_zero
      intro j hj
      obtain ⟨hjR, hjnW⟩ := List.mem_filter.mp hj
      have hjnW' : j ∉ get_path_leaf_to_root (st.pos a) (heightL c) := by simpa using hjnW
      have hoffall := read_off_write_no_path c (st.pos a) hxlt j hjR hjnW'
      exact off_path_count_zero c st a2 hZ hndW j (hRlt j hjR)
        (hoffall (st.pos a2) (hposm a2 ha2))
    omega
  have hstash1cnt : ∀ a2, a2 < c.N →
      countA a2 (st.stash ++ (readIndices c (st.pos a)).flatMap (fun i => nodeBlocks st i)) =
        countA a2 st.stash + (((get_path_leaf_to_root (st.pos a) (heightL c)).map
          (fun j => countA a2 (nodeBlocks st j))).sum) := by
    intro a2 ha2
    rw [countA_eq_countP, List.countP_append, countP_flatMap, ← countA_eq_countP]
    have hcc : ((readIndices c (st.pos a)).map
        (fun i => (nodeBlocks st i).countP (fun b => !b.dummy_flag && b.a == a2))).sum =
        ((readIndices c (st.pos a)).map (fun j => countA a2 (nodeBlocks st j))).sum := by
      apply sum_map_congr
      intro i _
      rw [countA_eq_countP]
    rw [hcc, hsumRW a2 ha2]
  have hO1 : ∀ a2, a2 < c.N → countO st a2 =
      countA a2 (st.stash ++ (readIndices c (st.pos a)).flatMap (fun i => nodeBlocks st i)) +
        offWsum c st (st.pos a) a2 := by
    intro a2 ha2
    rw [hstash1cnt a2 ha2, countO_decomp, htl]
    rw [sum_map_split (List.range (nbuckets c))
      (get_path_leaf_to_root (st.pos a) (heightL c))
      (fun j => countA a2 (nodeBlocks st j)) (List.nodup_range _) hWnd
      (fun i hi => List.mem_range.mpr (hWlt i hi))]
    unfold offWsum
    omega
  have hoffa : offWsum c st (st.pos a) a = 0 := by
    unfold offWsum
    apply sum_map_eq_zero
    intro j hj
    obtain ⟨hjr, hjnW⟩ := List.mem_filter.mp hj
    exact off_path_count_zero c st a hZ hndW j (List.mem_range.mp hjr) (by simpa using hjnW)
  have hstash1OK : ∀ b ∈ st.stash ++ (readIndices c (st.pos a)).flatMap
      (fun i => nodeBlocks st i), blkOKb c b = true := by
    intro b hb
    rcases List.mem_append.mp hb with hm | hm
    · exact (hstW b hm).1
    · obtain ⟨i, hiR, hbi⟩ := List.mem_flatMap.mp hm
      exact ((hnode i (hRlt i hiR)).2.1 b hbi).1
  have hstash1mem : ∀ b ∈ st.stash ++ (readIndices c (st.pos a)).flatMap
      (fun i => nodeBlocks st i), b ∈ allBlocks st := by
    intro b hb
    rcases List.mem_append.mp hb with hm | hm
    · exact mem_allBlocks_of_stash st b hm
    · obtain ⟨i, hiR, hbi⟩ := List.mem_flatMap.mp hm
      exact mem_allBlocks_of_node st i (by rw [htl]; exact hRlt i hiR) b hbi
  have hpredeq : ∀ b ∈ st.stash ++ (readIndices c (st.pos a)).flatMap
      (fun i => nodeBlocks st i), ((b.a == a) : Bool) = (!b.dummy_flag && b.a == a) :=
    pred_eq_on_clean c a ha _ hstash1OK
  have hcntP_addr : (st.stash ++ (readIndices c (st.pos a)).flatMap
      (fun i => nodeBlocks st i)).countP (fun b => b.a == a) =
      countA a (st.stash ++ (readIndices c (st.pos a)).flatMap (fun i => nodeBlocks st i)) := by
    rw [countA_eq_countP]
    exact countP_congr_pred _ _ _ hpredeq
  have hcnt_stash1_a :
      countA a (st.stash ++ (readIndices c (st.pos a)).flatMap (fun i => nodeBlocks st i)) =
        countO st a := by
    have e1 := hO1 a ha
    omega
  have hcnt01 :
      countA a (st.stash ++ (readIndices c (st.pos a)).flatMap (fun i => nodeBlocks st i)) = 0 ∨
      countA a (st.stash ++ (readIndices c (st.pos a)).flatMap (fun i => nodeBlocks st i)) = 1 := by
    have := huq a ha
    omega
  -- the value returned by the scan equals the logical lookup
  have hlookup_cnt : (allBlocks st).countP (fun b => !b.dummy_flag && b.a == a) =
      countO st a := by
    rw [← countA_eq_countP]
    rfl
  have hdata : ((st.stash ++ (readIndices c (st.pos a)).flatMap
      (fun i => nodeBlocks st i)).find? (fun b => b.a == a)).map (fun b => b.data) =
      lookupO st a := by
    rcases hcnt01 with h0 | h1
    · have hs0 : (st.stash ++ (readIndices c (st.pos a)).flatMap
          (fun i => nodeBlocks st i)).countP (fun b => b.a == a) = 0 := by
        rw [hcntP_addr]; exact h0
      rw [List.find?_eq_none.mpr (fun x hx => by
        have := List.countP_eq_zero.mp hs0 x hx
        exact this)]
      have hl0 : (allBlocks st).countP (fun b => !b.dummy_flag && b.a == a) = 0 := by
        rw [hlookup_cnt, ← hcnt_stash1_a, h0]
      unfold lookupO
      rw [List.find?_eq_none.mpr (fun x hx => by
        have := List.countP_eq_zero.mp hl0 x hx
        exact this)]
    · have hs1 : (st.stash ++ (readIndices c (st.pos a)).flatMap
          (fun i => nodeBlocks st i)).countP (fun b => b.a == a) = 1 := by
        rw [hcntP_addr]; exact h1
      obtain ⟨l1, theB, l2, hdec, hpB, hl1, hl2⟩ := countP_one_decomp _ _ hs1
      have hfind1 : (st.stash ++ (readIndices c (st.pos a)).flatMap
          (fun i => nodeBlocks st i)).find? (fun b => b.a == a) = some theB := by
        rw [hdec]
        exact find?_append_cons _ l1 theB l2 hl1 hpB
      have hBmem : theB ∈ st.stash ++ (readIndices c (st.pos a)).flatMap
          (fun i => nodeBlocks st i) := by
        rw [hdec]
        simp
      have hBreal : (!theB.dummy_flag && theB.a == a) = true := by
        rw [← hpredeq theB hBmem]
        exact hpB
      have hBall : theB ∈ allBlocks st := hstash1mem theB hBmem
      have hlcnt1 : (allBlocks st).countP (fun b => !b.dummy_flag && b.a == a) = 1 := by
        rw [hlookup_cnt, ← hcnt_stash1_a, h1]
      have hfind2 : (allBlocks st).find? (fun b => !b.dummy_flag && b.a == a) = some theB := by
        apply find?_eq_of_unique _ _ theB hBall hBreal
        intro b2 hb2 hp2
        exact countP_one_unique _ _ hlcnt1 hb2 hBall hp2 hBreal
      rw [hfind1]
      unfold lookupO
      rw [hfind2]
  exact Access_master_core c hCkeep st hWkeep op a data_ newx freshN ha hx hd
    hphase hstash1OK hstash1mem hcntP_addr hcnt_stash1_a hO1 hoffa hdata (huq a ha)

/-! ## Reachable states -/

/-- States produced from a fresh client by successful accesses whose inputs
are clean: the address is in range, the sampled leaf is in range, and a
write payload is 4 bytes whose serialized block avoids the byte pair
`0x7C 0x7C` used as the bucket separator. -/
inductive Reachable (c : Cfg) : OState → Prop where
  | init (pos0 nonce0 : Nat → Nat)
      (hpos : ∀ a, a < c.N → pos0 a < 2 ^ heightL c) :
      Reachable c (initState c pos0 nonce0)
  | step (st st1 : OState) (op : Op) (a : Nat) (data_ : List Nat)
      (newx : Nat) (freshN : Nat → Nat) (d : Option (List Nat))
      (hst : Reachable c st) (ha : a < c.N) (hx : newx < 2 ^ heightL c)
      (hd : op = Op.write → data_.length = 4 ∧
        sepFree (serializeBlk { a := a, x := newx, data := data_, dummy_flag := false }) = true)
      (hacc : Access c op a data_ newx freshN st = ARes.ok d st1) :
      Reachable c st1

/-- Every reachable state satisfies the well-formedness invariant. -/
lemma Reachable_WF (c : Cfg) (hC : CfgOK c) (st : OState)
    (h : Reachable c st) : WF c st := by
  induction h with
  | init pos0 nonce0 hpos => exact initState_WF c hC pos0 nonce0 hpos
  | step st st1 op a data_ newx freshN d hst ha hx hd hacc ih =>
    obtain ⟨st1', heq, hWF, _, _⟩ :=
      Access_master c hC st ih op a data_ newx freshN ha hx hd
    rw [hacc] at heq
    cases heq
    exact hWF

/-! ## Concrete configurations and traces for the claim analyses -/

/-- `N = 16, Z = 4`: 4 buckets, height `L = 1`. -/
def cfg16 : Cfg := ⟨16, 4⟩

/-- `N = 64, Z = 4`: 16 buckets, height `L = 3` (the spec running example). -/
def cfg64 : Cfg := ⟨64, 4⟩

/-- `N = 8, Z = 4`: the smallest admissible configuration `N = 2Z`. -/
def cfg8 : Cfg := ⟨8, 4⟩

/-- `N = 24, Z = 4`: 6 buckets — not a power of two — with height `L = 2`. -/
def cfg24 : Cfg := ⟨24, 4⟩

/-- Fresh client over `cfg16`, all-zero position map and initial nonces. -/
def st16 : OState := initState cfg16 (fun _ => 0) (fun _ => 0)

/-- Fresh client over `cfg64`, all-zero position map and initial nonces. -/
def st64 : OState := initState cfg64 (fun _ => 0) (fun _ => 0)

/-- Fresh client over `cfg8`, all-zero position map and initial nonces. -/
def st8 : OState := initState cfg8 (fun _ => 0) (fun _ => 0)

/-- Fresh client over `cfg24` whose position map sends every address to
leaf 3 (a leaf value the client itself can sample, since `3 < 2^L = 4`). -/
def st24 : OState := initState cfg24 (fun _ => 3) (fun _ => 0)

/-- The state carried by a call result: the final state of a successful
call, or the state at the raise point of a failed one. -/
def resState : ARes → OState
  | .ok _ s => s
  | .err _ s => s

lemma cfg16_OK : CfgOK cfg16 :=
  ⟨by decide, by decide, by decide, by decide, by decide⟩

/-- `st16` with the ciphertext of tree slot 1 replaced by one produced under
a different nonce, so its authenticated decryption fails. -/
def badCt16 : Ct := encryptB 1 1 (encode_bucket (List.replicate 4 (dummyBlk cfg16)))

def tamper16 : OState :=
  { st16 with tree := st16.tree.set 1 badCt16 }

/-- `st8` with the ciphertext of tree slot 1 replaced by one produced under
a different nonce, so its authenticated decryption fails. -/
def badCt8 : Ct := encryptB 1 1 (encode_bucket (List.replicate 4 (dummyBlk cfg8)))

def tamper8 : OState :=
  { st8 with tree := st8.tree.set 1 badCt8 }

/-! ## Anatomy of a successful Access, and the eviction frame property -/

/-- A successful `Access` always went through the full eviction loop on the
pre-call path of `a` and then filtered dummies out of the stash. -/
lemma Access_ok_anatomy (c : Cfg) (op : Op) (a : Nat) (data_ : List Nat)
    (newx : Nat) (freshN : Nat → Nat) (st : OState) (d : Option (List Nat))
    (st1 : OState) (h : Access c op a data_ newx freshN st = ARes.ok d st1) :
    ∃ stash2 stE,
      evictLevels c (heightL c) freshN
          (get_path_leaf_to_root (st.pos a) (heightL c)).enum
          { stash := stash2
          , pos := fun b => if b = a then newx else st.pos b
          , nonces := st.nonces
          , tree := st.tree } = .ok stE ∧
      st1 = { stE with stash := stE.stash.filter (fun b => !b.dummy_flag) } := by
  simp only [Access] at h
  split at h
  · split at h
    · exact ARes.noConfusion h
    · split at h
      · exact ARes.noConfusion h
      · next stE hev =>
        injection h with h1 h2
        exact ⟨_, stE, hev, h2.symm⟩
  · exact ARes.noConfusion h

/-- The ok path of the eviction loop leaves the position map alone and only
rewrites the tree slots and nonces of the visited nodes. -/
lemma evictLevels_frame (c : Cfg) (L : Nat) (freshN : Nat → Nat) :
    ∀ (ps : List (Nat × Nat)) (st stE : OState),
      evictLevels c L freshN ps st = .ok stE →
      stE.pos = st.pos ∧
      ∀ i, (∀ q ∈ ps, q.2 ≠ i) →
        stE.tree.get? i = st.tree.get? i ∧ stE.nonces i = st.nonces i
  | [], st, stE, h => by
    cases h
    exact ⟨rfl, fun i _ => ⟨rfl, rfl⟩⟩
  | (level, node) :: rest, st, stE, h => by
    rw [evictLevels_cons] at h
    split at h
    · exact Except.noConfusion h
    · split at h
      · obtain ⟨hpos, hframe⟩ := evictLevels_frame c L freshN rest _ stE h
        refine ⟨by rw [hpos], ?_⟩
        intro i hi
        have hne : node ≠ i := hi (level, node) (List.mem_cons_self _ _)
        obtain ⟨ht, hn⟩ := hframe i (fun q hq => hi q (List.mem_cons_of_mem _ hq))
        constructor
        · rw [ht]
          show (st.tree.set node _).get? i = _
          rw [List.get?_eq_getElem?, List.get?_eq_getElem?, List.getElem?_set_ne hne]
        · rw [hn]
          show (if i = node then _ else st.nonces i) = _
          rw [if_neg (fun hh => hne hh.symm)]
      · exact Except.noConfusion h

/-! ## The claims -/

set_option maxHeartbeats 4000000

/-- C1: the spec demands that a decryption/authentication failure during the
path read leave the client state unchanged, but the code remaps
`position_map[a]` before the path read and appends decoded blocks to the
stash as it goes: a tampered bucket on node 1 aborts the Access with an
integrity error while the position map already holds the new leaf and the
stash already holds the four blocks of node 0. -/
theorem C1_decrypt_failure_mutates_state :
    ∃ stE, Access cfg16 Op.read 3 [] 1 (fun l => 100 + l) tamper16 =
        ARes.err AErr.integrityError stE ∧
      tamper16.pos 3 = 0 ∧ stE.pos 3 = 1 ∧
      tamper16.stash = [] ∧ stE.stash.length = 4 :=
  ⟨_, rfl, rfl, rfl, rfl, rfl⟩

/-- C2 counterexample: over `N = 64, Z = 4`, writing the 4-byte payload
`[124, 124, 0, 0]` — which begins with the two separator bytes `"||"` —
at address 3 succeeds, but the immediately following read of address 3
returns `some []` rather than the payload: the separator bytes inside the
serialized block corrupt the bucket split on the next decode. -/
theorem C2_counterexample_separator_payload :
    ∃ st1 st2,
      Access cfg64 Op.write 3 [124, 124, 0, 0] 0 (fun l => 100 + l) st64 =
        ARes.ok none st1 ∧
      Access cfg64 Op.read 3 [] 0 (fun l => 200 + l) st1 =
        ARes.ok (some []) st2 ∧
      (some [] : Option (List Nat)) ≠ some [124, 124, 0, 0] :=
  ⟨_, _, rfl, rfl, by decide⟩

/-- C2 (amended): read-your-writes holds for every reachable state and every
4-byte payload whose serialized block is free of the separator byte pair
`0x7C 0x7C`: after a successful write of `d` at `a`, an immediately
following read of `a` returns `d`. -/
theorem C2_read_your_writes (c : Cfg) (hC : CfgOK c) (st : OState)
    (hR : Reachable c st) (a : Nat) (d : List Nat) (newx1 newx2 : Nat)
    (f1 f2 : Nat → Nat) (ha : a < c.N)
    (hx1 : newx1 < 2 ^ heightL c) (hx2 : newx2 < 2 ^ heightL c)
    (hd : d.length = 4 ∧
      sepFree (serializeBlk { a := a, x := newx1, data := d, dummy_flag := false }) = true) :
    ∃ old st1 st2,
      Access c Op.write a d newx1 f1 st = ARes.ok old st1 ∧
      Access c Op.read a [] newx2 f2 st1 = ARes.ok (some d) st2 := by
  have hW := Reachable_WF c hC st hR
  obtain ⟨st1, h1, hW1, _, hwr⟩ :=
    Access_master c hC st hW Op.write a d newx1 f1 ha hx1 (fun _ => hd)
  obtain ⟨st2, h2, _, _, _⟩ :=
    Access_master c hC st1 hW1 Op.read a [] newx2 f2 ha hx2
      (fun hcon => Op.noConfusion hcon)
  refine ⟨lookupO st a, st1, st2, h1, ?_⟩
  rw [h2, hwr rfl]

/-- C2 witness: the amended read-your-writes at a concrete clean input. -/
theorem C2_read_your_writes_witness :
    ∃ old st1 st2,
      Access cfg16 Op.write 3 [65, 66, 67, 68] 1 (fun l => 100 + l) st16 =
        ARes.ok old st1 ∧
      Access cfg16 Op.read 3 [] 0 (fun l => 200 + l) st1 =
        ARes.ok (some [65, 66, 67, 68]) st2 :=
  C2_read_your_writes cfg16 cfg16_OK st16
    (Reachable.init (fun _ => 0) (fun _ => 0) (fun a h => by show (0:Nat) < 2 ^ heightL cfg16; decide))
    3 [65, 66, 67, 68] 1 0 (fun l => 100 + l) (fun l => 200 + l)
    (by decide) (by decide) (by decide) ⟨by decide, by decide⟩

/-- C3 counterexample: after the separator-payload write of the C2 trace and
the following read, tree slot 7 holds a ciphertext of 66 bytes, not the
constant `Z·13 + 2·(Z−1) + 16 = 74`: the garbage blocks produced by the
corrupted split re-serialize to short blocks on the next eviction. -/
theorem C3_counterexample_ciphertext_length :
    ∃ st1 st2,
      Access cfg64 Op.write 3 [124, 124, 0, 0] 0 (fun l => 100 + l) st64 =
        ARes.ok none st1 ∧
      Access cfg64 Op.read 3 [] 0 (fun l => 200 + l) st1 =
        ARes.ok (some []) st2 ∧
      ctLen (st2.tree.getD 7 (encryptB 0 0 [])) = 66 ∧
      cfg64.Z * 13 + 2 * (cfg64.Z - 1) + 16 = 74 :=
  ⟨_, _, rfl, rfl, rfl, rfl⟩

/-- C3 (amended): in every reachable state — fresh client, and clean
separator-free accesses from there — every tree slot below `num_buckets`
holds a ciphertext of exactly `Z·13 + 2·(Z−1) + 16` bytes. -/
theorem C3_ciphertext_length_reachable (c : Cfg) (hC : CfgOK c) (st : OState)
    (hR : Reachable c st) (i : Nat) (hi : i < nbuckets c) :
    ctLen (st.tree.getD i (encryptB 0 0 [])) = c.Z * 13 + 2 * (c.Z - 1) + 16 := by
  obtain ⟨htl, _, _, hnd, _⟩ := Reachable_WF c hC st hR
  obtain ⟨bks, hget, hlen, hblk⟩ := hnd i hi
  have hgetD : st.tree.getD i (encryptB 0 0 []) =
      encryptB i (st.nonces i) (encode_bucket bks) := by
    rw [List.getD_eq_getElem?_getD, ← List.get?_eq_getElem?, hget]
    rfl
  rw [hgetD]
  show (encode_bucket bks).length + 16 = c.Z * 13 + 2 * (c.Z - 1) + 16
  rw [encode_bucket_length bks c.Z hlen hC.1
    (fun b hb => (blkOKb_spec c b (hblk b hb).1).1)]

/-- C3 witness: the constant ciphertext length at a concrete reachable
state and node. -/
theorem C3_ciphertext_length_reachable_witness :
    ctLen (st16.tree.getD 0 (encryptB 0 0 [])) =
      cfg16.Z * 13 + 2 * (cfg16.Z - 1) + 16 :=
  C3_ciphertext_length_reachable cfg16 cfg16_OK st16
    (Reachable.init (fun _ => 0) (fun _ => 0) (fun a h => by show (0:Nat) < 2 ^ heightL cfg16; decide))
    0 (by decide)

/-- C4: the spec says a delete of an address that is not stored is a no-op
on the stash, but the code runs `stash.remove(stash[-1])` when the search
fails (`block_idx = -1`) and so removes the **last** stash element: after
four writes that all land on the path of leaf 0, a delete of the absent
address 5 returns nil yet silently destroys the stored block of address 3
(its system-wide count drops from 1 to 0). -/
theorem C4_delete_absent_loses_block :
    ∃ s1 s2 s3 s4 s5,
      Access cfg16 Op.write 0 [65, 65, 65, 65] 0 (fun l => 100 + l) st16 =
        ARes.ok none s1 ∧
      Access cfg16 Op.write 1 [66, 66, 66, 66] 0 (fun l => 101 + l) s1 =
        ARes.ok none s2 ∧
      Access cfg16 Op.write 2 [67, 67, 67, 67] 0 (fun l => 102 + l) s2 =
        ARes.ok none s3 ∧
      Access cfg16 Op.write 3 [68, 68, 68, 68] 0 (fun l => 103 + l) s3 =
        ARes.ok none s4 ∧
      countO s4 5 = 0 ∧ countO s4 3 = 1 ∧
      Access cfg16 Op.delete 5 [] 0 (fun l => 200 + l) s4 = ARes.ok none s5 ∧
      countO s5 3 = 0 :=
  ⟨_, _, _, _, _, rfl, rfl, rfl, rfl, rfl, rfl, rfl, rfl⟩

/-- C5 counterexample: for `N = 24, Z = 4` there are 6 buckets and
`L = 2`, and the leaf value 3 — sampled from `[0, 2^L) = [0, 4)` exactly as
the client does — walks the read path `[0, 2, 6]`, whose last index is out
of range, so an Access on a fresh client whose position map holds leaf 3
fails with an index error instead of functioning. -/
theorem C5_counterexample_non_power_of_two :
    nbuckets cfg24 = 6 ∧ heightL cfg24 = 2 ∧ (3 : Nat) < 2 ^ heightL cfg24 ∧
    readIndices cfg24 3 = [0, 2, 6] ∧ ¬(6 < nbuckets cfg24) ∧
    ∃ stE, Access cfg24 Op.read 0 [] 0 (fun l => 100 + l) st24 =
      ARes.err AErr.indexError stE :=
  ⟨rfl, rfl, by decide, rfl, by decide, ⟨_, rfl⟩⟩

/-- C5 (amended): when the bucket count is at least `2^(L+1) − 1` — in
particular whenever it is a power of two — every index visited by the path
read and every index written by the eviction is within `[0, num_buckets)`
for every leaf the client can sample. -/
theorem C5_indices_in_range (c : Cfg) (x : Nat) (h2 : 2 ≤ nbuckets c)
    (hnb : 2 ^ (heightL c + 1) - 1 ≤ nbuckets c) (hx : x < 2 ^ heightL c) :
    (∀ j ∈ readIndices c x, j < nbuckets c) ∧
    (∀ j ∈ get_path_leaf_to_root x (heightL c), j < nbuckets c) :=
  ⟨readIndices_lt_nb c x h2 hnb hx, writeIndices_lt_nb c x hnb hx⟩

/-- C5 witness: the amended bound at a concrete configuration and leaf. -/
theorem C5_indices_in_range_witness :
    (2 ≤ nbuckets cfg16 ∧ 2 ^ (heightL cfg16 + 1) - 1 ≤ nbuckets cfg16 ∧
      1 < 2 ^ heightL cfg16) ∧
    (∀ j ∈ readIndices cfg16 1, j < nbuckets cfg16) ∧
    (∀ j ∈ get_path_leaf_to_root 1 (heightL cfg16), j < nbuckets cfg16) :=
  ⟨⟨by decide, by decide, by decide⟩,
    C5_indices_in_range cfg16 1 (by decide) (by decide) (by decide)⟩

/-- C6 counterexample: a bucket of four 4-byte-payload blocks whose first
block carries the separator bytes in its payload does not round-trip
through the codec: splitting on `"||"` cuts inside the block. -/
theorem C6_counterexample_roundtrip :
    ∃ bks : List Blk, bks.length = 4 ∧ (∀ b ∈ bks, b.data.length = 4) ∧
      decode_bucket (encode_bucket bks) ≠ bks :=
  ⟨[⟨3, 0, [124, 124, 0, 0], false⟩, dummyBlk cfg16, dummyBlk cfg16, dummyBlk cfg16],
    rfl, by decide, by decide⟩

/-- C6 (amended): the bucket codec round-trips on every nonempty bucket of
blocks with 4-byte payloads, in-range fields, and separator-free
serializations — the extra hypothesis the spec sentence is missing. -/
theorem C6_roundtrip_sepFree (bks : List Blk) (hne : bks ≠ [])
    (h : ∀ b ∈ bks, sepFree (serializeBlk b) = true ∧ b.data.length = 4 ∧
      b.a < 2 ^ 32 ∧ b.x < 2 ^ 32) :
    decode_bucket (encode_bucket bks) = bks :=
  decode_encode bks hne h

/-- C6 witness: the round-trip on a concrete separator-free bucket. -/
theorem C6_roundtrip_sepFree_witness :
    decode_bucket (encode_bucket
        [dummyBlk cfg16, dummyBlk cfg16, dummyBlk cfg16, dummyBlk cfg16]) =
      [dummyBlk cfg16, dummyBlk cfg16, dummyBlk cfg16, dummyBlk cfg16] :=
  C6_roundtrip_sepFree _ (by decide) (by decide)

/-- C7 counterexample: a write of a 6-byte payload is accepted without any
error and reaches the server — the bucket written at tree slot 1 grows
from the uniform 74 bytes to 76 — so invalid payload widths are not
rejected, and no InvalidArgument-style pre-validation exists in the code. -/
theorem C7_counterexample_oversized_payload :
    ∃ st1, Access cfg16 Op.write 3 [65, 66, 67, 68, 69, 70] 0 (fun l => 100 + l) st16 =
        ARes.ok none st1 ∧
      ctLen (st1.tree.getD 1 (encryptB 0 0 [])) = 76 ∧
      ctLen (st16.tree.getD 1 (encryptB 0 0 [])) = 74 :=
  ⟨_, rfl, rfl, rfl⟩

/-- C7 (amended): the only input validation the code performs is the
position-map lookup itself: an address outside `[0, N)` raises KeyError at
that lookup, before any mutation or server I/O, leaving the state
verbatim unchanged — but it is a KeyError, not a dedicated
InvalidArgument, and payload widths are never checked. -/
theorem C7_bad_address_rejected (c : Cfg) (op : Op) (a : Nat)
    (data_ : List Nat) (newx : Nat) (freshN : Nat → Nat) (st : OState)
    (ha : ¬ a < c.N) :
    Access c op a data_ newx freshN st = ARes.err AErr.keyError st := by
  unfold Access
  rw [if_neg ha]

/-- C7 witness: the out-of-range address 99 is rejected with the state
unchanged. -/
theorem C7_bad_address_rejected_witness :
    Access cfg16 Op.read 99 [] 0 (fun l => 100 + l) st16 =
      ARes.err AErr.keyError st16 :=
  C7_bad_address_rejected cfg16 Op.read 99 [] 0 (fun l => 100 + l) st16 (by decide)

/-- C8: stash hygiene — every successfully returning Access ends by
filtering the stash on `dummy_flag == False`, so no dummy block survives in
the stash, for every op, every address and every starting state. -/
theorem C8_no_dummies_in_stash (c : Cfg) (op : Op) (a : Nat)
    (data_ : List Nat) (newx : Nat) (freshN : Nat → Nat) (st : OState)
    (d : Option (List Nat)) (st1 : OState)
    (h : Access c op a data_ newx freshN st = ARes.ok d st1) :
    ∀ b ∈ st1.stash, b.dummy_flag = false := by
  obtain ⟨stash2, stE, hev, hst1⟩ :=
    Access_ok_anatomy c op a data_ newx freshN st d st1 h
  subst hst1
  intro b hb
  have hmem := List.mem_filter.mp hb
  simpa using hmem.2

/-- C8 witness: the stash is dummy-free after a concrete successful read. -/
theorem C8_no_dummies_in_stash_witness :
    (resState (Access cfg16 Op.read 0 [] 0 (fun l => 100 + l) st16)).stash.all
      (fun b => !b.dummy_flag) = true :=
  List.all_eq_true.mpr (fun b hb => by
    simpa using C8_no_dummies_in_stash cfg16 Op.read 0 [] 0 (fun l => 100 + l) st16 none
      (resState (Access cfg16 Op.read 0 [] 0 (fun l => 100 + l) st16)) rfl b hb)

/-- C9 counterexample: with `N = 2Z` the tree has **two** buckets, not one,
and an Access reads both of them: the read loop visits `[0, 1]` (the
`zfill(0)` quirk makes the bit string `"0"` rather than empty), so
tampering with tree slot 1 alone makes a read fail its integrity check —
which could not happen if only bucket 0 were touched. -/
theorem C9_counterexample_two_buckets :
    nbuckets cfg8 = 2 ∧ readIndices cfg8 0 = [0, 1] ∧ readIndices cfg8 0 ≠ [0] ∧
    ∃ stE, Access cfg8 Op.read 0 [] 0 (fun l => 100 + l) tamper8 =
      ARes.err AErr.integrityError stE :=
  ⟨rfl, rfl, by decide, ⟨_, rfl⟩⟩

/-- C9 (amended): in the smallest admissible configuration `N = 2Z` the
height is `L = 0` and the tree has two buckets; every Access reads buckets
0 and 1 and writes back exactly one bucket, the root. -/
theorem C9_smallest_config (c : Cfg) (hz : 1 ≤ c.Z) (hN : c.N = 2 * c.Z) :
    heightL c = 0 ∧ nbuckets c = 2 ∧ readIndices c 0 = [0, 1] ∧
    get_path_leaf_to_root 0 (heightL c) = [0] := by
  have hnb : nbuckets c = 2 := by
    unfold nbuckets
    rw [hN]
    exact Nat.mul_div_cancel 2 hz
  have hL : heightL c = 0 := by
    unfold heightL
    rw [hnb]
    decide
  refine ⟨hL, hnb, readIndices_L0 c hL, ?_⟩
  rw [hL, get_path_eq]
  decide

/-- C9 witness: the amended geometry at the concrete `N = 8, Z = 4`. -/
theorem C9_smallest_config_witness :
    heightL cfg8 = 0 ∧ nbuckets cfg8 = 2 ∧ readIndices cfg8 0 = [0, 1] ∧
    get_path_leaf_to_root 0 (heightL cfg8) = [0] :=
  C9_smallest_config cfg8 (by decide) (by decide)

/-- C10: frame property — a successfully returning Access leaves the
position-map entry of every other address unchanged, and leaves the tree
slot and stored nonce of every node off the leaf-to-root path of the old
leaf `x = position_map[a]` unchanged. -/
theorem C10_access_frame (c : Cfg) (op : Op) (a : Nat) (data_ : List Nat)
    (newx : Nat) (freshN : Nat → Nat) (st : OState)
    (d : Option (List Nat)) (st1 : OState)
    (h : Access c op a data_ newx freshN st = ARes.ok d st1) :
    (∀ b, b ≠ a → st1.pos b = st.pos b) ∧
    (∀ i, i ∉ get_path_leaf_to_root (st.pos a) (heightL c) →
      st1.tree.get? i = st.tree.get? i ∧ st1.nonces i = st.nonces i) := by
  obtain ⟨stash2, stE, hev, hst1⟩ :=
    Access_ok_anatomy c op a data_ newx freshN st d st1 h
  obtain ⟨hpos, hframe⟩ := evictLevels_frame c (heightL c) freshN _ _ stE hev
  subst hst1
  constructor
  · intro b hb
    show stE.pos b = st.pos b
    rw [hpos]
    show (if b = a then newx else st.pos b) = st.pos b
    rw [if_neg hb]
  · intro i hi
    have hoff : ∀ q ∈ (get_path_leaf_to_root (st.pos a) (heightL c)).enum, q.2 ≠ i := by
      intro q hq hqe
      exact hi (hqe ▸ List.snd_mem_of_mem_enum hq)
    exact hframe i hoff

/-- C10 witness: the frame property at a concrete successful read. -/
theorem C10_access_frame_witness :
    (∀ b, b ≠ 0 →
      (resState (Access cfg16 Op.read 0 [] 0 (fun l => 100 + l) st16)).pos b =
        st16.pos b) ∧
    (∀ i, i ∉ get_path_leaf_to_root (st16.pos 0) (heightL cfg16) →
      (resState (Access cfg16 Op.read 0 [] 0 (fun l => 100 + l) st16)).tree.get? i =
          st16.tree.get? i ∧
        (resState (Access cfg16 Op.read 0 [] 0 (fun l => 100 + l) st16)).nonces i =
          st16.nonces i) :=
  C10_access_frame cfg16 Op.read 0 [] 0 (fun l => 100 + l) st16 none
    (resState (Access cfg16 Op.read 0 [] 0 (fun l => 100 + l) st16)) rfl

end PathORAM
